import Mathlib

/-!
# afnetns: named namespace handles and the inode-to-name cache

A shallow embedding of `lib/afnetns.c` (the inode-to-name cache) and of
`ip/ipafnetns.c` (list / add / delete / switch of named handles), with the
properties of the specification stated over it.

Conventions of the embedding:

* `ino_t` values are natural numbers; `inode & 63` is kept as a bitwise and.
* C functions returning `int` return an `Int` here (`0` success, `-1` failure,
  a descriptor number for `open`).
* Function-local `static` variables become fields of `Proc`, threaded
  through the calls.
* The operating system is a deterministic state (`Kernel`) together with a
  record (`Env`) of what it is disposed to permit during one operation.
* Heap allocation (`malloc`, `asprintf`) and `sprintf` are taken to succeed;
  diagnostics written to `stderr` are not represented.
* A name is resolved as the path `AFNETNS_RUN_DIR/name` (`resolve`): empty and
  `.` components are stepped over, a component after the name of an entry
  fails (entries are not directories), and a path that leaves the directory
  through `..` names a file outside it, kept under the spelling of its path
  (two spellings of one outside file are not identified).
-/

namespace Afnetns

/-- Inode numbers (`ino_t`). -/
abbrev Ino := Nat

/-! ## lib/afnetns.c : the inode-to-name cache -/

/-- One node of a collision chain (`struct inode_cache`); the `next` pointer
is the rest of the list the node sits in. -/
structure inode_cache where
  inode : Ino
  name : String
deriving DecidableEq, Repr

/-- The table `cache[64]`: one chain per bucket. -/
abbrev Cache := Fin 64 → List inode_cache

/-- The table of a starting process: every chain is empty. -/
def Cache.empty : Cache := fun _ => []

/-- The function-local statics of `lib/afnetns.c`. -/
structure Proc where
  /-- The static `initialized` of `self_inode`. -/
  self_initialized : Bool
  /-- The static `inode` of `self_inode`. -/
  self_ino : Ino
  /-- The table `cache`. -/
  cache : Cache
  /-- The static `initialized` of `afnetns_lookup_name`. -/
  initialized : Bool

/-- The statics of a process that has called nothing yet. -/
def Proc.fresh : Proc :=
  { self_initialized := false, self_ino := 0, cache := Cache.empty, initialized := false }

/-- What the library functions observe of the operating system during one call. -/
structure Sys where
  /-- The inode parsed out of the target of `/proc/self/ns/afnet`, or `none`
  when `pathconf`, `readlink` or `sscanf` fails. -/
  link : Option Ino
  /-- The names `readdir` yields for the registry directory, or `none` when
  `opendir` fails. -/
  dir : Option (List String)
  /-- The inode `fstatat` reports for a directory entry, or `none` when it fails. -/
  stat : String → Option Ino

/-- The function `self_inode`: the memoised inode of the caller's namespace; `none` stands
for a non-zero return. -/
def self_inode (o : Sys) (p : Proc) : Option Ino × Proc :=
  if p.self_initialized then (some p.self_ino, p)
  else
    match o.link with
    | none => (none, p)
    | some n => (some n, { p with self_initialized := true, self_ino := n })

/-- The bucket of an inode: `cache + (inode & 63)`. -/
def bucket (inode : Ino) : Fin 64 :=
  ⟨inode &&& 63, Nat.lt_succ_of_le Nat.and_le_right⟩

/-- The loop of `lookup_node`: how many `next` links are followed before
reaching a node with this inode or the end of the chain. -/
def walk (inode : Ino) : List inode_cache → Nat
  | [] => 0
  | n :: rest => if n.inode = inode then 0 else walk inode rest + 1

/-- A slot of the table (`struct inode_cache **`): a bucket and the number of
links followed from its head. -/
abbrev Slot := Fin 64 × Nat

/-- The function `lookup_node`: the slot holding the node of an inode, or the
null slot ending the chain of its bucket. -/
def lookup_node (c : Cache) (inode : Ino) : Slot :=
  (bucket inode, walk inode (c (bucket inode)))

/-- The node a slot points to (`*node`), `none` for a null pointer. -/
def deref (c : Cache) (s : Slot) : Option inode_cache :=
  (c s.1)[s.2]?

/-- Storing a new node with `next = NULL` into a slot (`*node = ...`). -/
def store (c : Cache) (s : Slot) (n : inode_cache) : Cache :=
  Function.update c s.1 ((c s.1).take s.2 ++ [n])

/-- The body of the `readdir` loop of `fill_cache` for one entry: `.` and `..`
are skipped, an entry that cannot be stat'ed is skipped (`dirfd` on the open
stream does not fail), an inode already in the table is skipped, and otherwise
a node named after the entry, with `,self` when the inode is the caller's, is
stored in the null slot `lookup_node` returned. -/
def fill_entry (o : Sys) (me : Ino) (c : Cache) (d_name : String) : Cache :=
  if d_name = "." ∨ d_name = ".." then c
  else
    match o.stat d_name with
    | none => c
    | some inode =>
      let self := decide (me = inode)
      let node := lookup_node c inode
      match deref c node with
      | some _ => c
      | none => store c node ⟨inode, d_name ++ (if self then ",self" else "")⟩

/-- The function `fill_cache`: gives up when the self inode does not resolve
or the directory does not open, else runs the loop over the entries. -/
def fill_cache (o : Sys) (p : Proc) : Proc :=
  match self_inode o p with
  | (none, p1) => p1
  | (some me, p1) =>
    match o.dir with
    | none => p1
    | some names => { p1 with cache := names.foldl (fill_entry o me) p1.cache }

/-- The name synthesised for an inode without cache entry:
`sprintf("afnet:[%lu]%s", inode, self ? ",self" : "")`. -/
def synth (inode : Ino) (self : Bool) : String :=
  "afnet:[" ++ toString inode ++ "]" ++ (if self then ",self" else "")

/-- The function `lookup_cache`; `none` stands for `NULL`. The slot is computed
before `self_inode` is called, as in the source; the branch for a failing
`sprintf` is left out. -/
def lookup_cache (o : Sys) (p : Proc) (inode : Ino) : Option String × Proc :=
  let node := lookup_node p.cache inode
  match deref p.cache node with
  | some n => (some n.name, p)
  | none =>
    match self_inode o p with
    | (none, p1) => (none, p1)
    | (some me, p1) =>
      let self := decide (me = inode)
      (some (synth inode self),
        { p1 with cache := store p1.cache node ⟨inode, synth inode self⟩ })

/-- The function `afnetns_lookup_name`: fills the cache on the first call,
then looks the inode up. -/
def afnetns_lookup_name (o : Sys) (p : Proc) (inode : Ino) : Option String × Proc :=
  let p1 := if p.initialized then p else { fill_cache o p with initialized := true }
  lookup_cache o p1 inode

/-- A run of successive `afnetns_lookup_name` calls, each with what the
operating system shows at that moment; returns the answers in order. -/
def lookups (p : Proc) : List (Sys × Ino) → List (Option String) × Proc
  | [] => ([], p)
  | (o, i) :: rest =>
    let r := afnetns_lookup_name o p i
    let rs := lookups r.2 rest
    (r.1 :: rs.1, rs.2)

/-! ## The operating system -/

/-- An entry of the registry directory. -/
structure Entry where
  /-- The name of the entry in the directory. -/
  name : String
  /-- The inode of the placeholder file itself. -/
  ino : Ino
  /-- The namespace bind-mounted on the path, by its inode; `none` for a bare
  placeholder. -/
  mnt : Option Ino
deriving DecidableEq, Repr

/-- The inode `stat` reports for the path of an entry: that of the namespace
mounted there, else that of the placeholder. -/
def Entry.stat (x : Entry) : Ino := x.mnt.getD x.ino

/-- The part of the system state the program acts on. -/
structure Kernel where
  /-- The entries of the registry directory (`AFNETNS_RUN_DIR`), `none` when
  the directory does not exist. -/
  dir : Option (List Entry)
  /-- The files outside the registry directory that a name can reach through
  `..`, each under the spelling of its path. -/
  ext : List Entry
  /-- The inode of the afnet namespace the calling process belongs to. -/
  cur : Ino
deriving DecidableEq, Repr

/-- What the system is disposed to permit while one operation runs. -/
structure Env where
  /-- The registry directory may be created when it is missing. -/
  mkdir_ok : Bool
  /-- Whether a file may be created at the path of the operation. -/
  dir_w : Bool
  /-- Whether the file at the path of the operation may be removed. -/
  unlink_ok : Bool
  /-- The inode a newly created file receives. -/
  new_ino : Ino
  /-- Whether `close` succeeds. -/
  close_ok : Bool
  /-- The inode of the namespace `unshare` would allocate, `none` when it is refused. -/
  unshare : Option Ino
  /-- Whether a bind mount is permitted. -/
  mount_ok : Bool
  /-- Whether detaching a mount is permitted. -/
  umount_ok : Bool
  /-- Whether joining a namespace is permitted. -/
  setns_ok : Bool
  /-- Whether `/proc/self/ns/afnet` can be read and parsed. -/
  procfs : Bool
deriving DecidableEq, Repr

/-- A system call that was made, with the value it returned. -/
inductive Call where
  | mkdir (ret : Int) (eexist : Bool)
  | open_excl (name : String) (ret : Int)
  | close (ret : Int)
  | unshare (ret : Int)
  | mount (name : String) (ret : Int)
  | umount2 (name : String) (ret : Int)
  | unlink (name : String) (ret : Int)
  | open_rdonly (name : String) (ret : Int)
  | setns (ret : Int)
deriving DecidableEq, Repr

/-- The components of a path: the pieces between its slashes. -/
def splitSlash : List Char → List (List Char)
  | [] => [[]]
  | c :: cs =>
    if c = '/' then [] :: splitSlash cs
    else
      match splitSlash cs with
      | [] => [[c]]
      | w :: ws => (c :: w) :: ws

/-- A name that can be the name of a directory entry: not empty, not `.` or
`..`, and without a slash. -/
def isComponent (s : String) : Bool :=
  decide (s ≠ "" ∧ s ≠ "." ∧ s ≠ ".." ∧ '/' ∉ s.toList)

/-- A component that path resolution steps over: empty (between two slashes)
or `.`. -/
def isTrivial (c : String) : Bool := decide (c = "" ∨ c = ".")

/-- Where the path `AFNETNS_RUN_DIR/name` leads. -/
inductive Target where
  /-- A file: an entry of the registry directory (`inside = true`) under its
  name, or a file outside it under the spelling of its path. -/
  | file (inside : Bool) (key : String)
  /-- A directory: the registry directory itself or one above it. -/
  | dir
  /-- Nowhere: a component follows the name of an entry, which is not a directory. -/
  | bad
deriving DecidableEq, Repr

/-- Resolution of the path `AFNETNS_RUN_DIR/name` (the `asprintf` of
`afnetns_add`, `afnetns_delete` and `afnetns_open`): empty and `.` components
are stepped over; a first component other than `..` names an entry of the
registry and must be the last; a first component `..` leaves the directory,
and the path then leads to a directory when it ends in `..`, nowhere when a
slash or `.` follows its last name, and else to a file outside. -/
def resolve (name : String) : Target :=
  match ((splitSlash name.toList).map String.mk).dropWhile isTrivial with
  | [] => Target.dir
  | c :: more =>
    if c = ".." then
      match (more.filter (fun x => !isTrivial x)).getLast? with
      | none => Target.dir
      | some l =>
        if l = ".." then Target.dir
        else if more.getLast?.map isTrivial = some true then Target.bad
        else Target.file false (String.intercalate "/" (c :: more.filter (fun x => !isTrivial x)))
    else if more = [] ∧ isComponent c = true then Target.file true c
    else Target.bad

/-- The entries of the registry, none when the directory is missing; only a
component is the name of an entry. -/
def Kernel.entries (K : Kernel) : List Entry :=
  (K.dir.getD []).filter (fun x => isComponent x.name)

/-- The names bound in the registry. -/
def Kernel.names (K : Kernel) : List String := K.entries.map Entry.name

/-- The files of one of the two tables: the registry or the outside. -/
def Kernel.tab (K : Kernel) (inside : Bool) : List Entry :=
  if inside then K.entries else K.ext

/-- Replacing one of the two tables. -/
def Kernel.setTab (K : Kernel) (inside : Bool) (es : List Entry) : Kernel :=
  if inside then { K with dir := some es } else { K with ext := es }

/-- The state with the calling process moved to another namespace. -/
def Kernel.withCur (K : Kernel) (n : Ino) : Kernel := { K with cur := n }

/-- The file a name leads to; every path goes through the registry directory,
which has to exist. -/
def Kernel.find (K : Kernel) (name : String) : Option Entry :=
  match K.dir with
  | none => none
  | some _ =>
    match resolve name with
    | Target.file w c => (K.tab w).find? (fun x => x.name = c)
    | _ => none

/-- The stream of `opendir` and `readdir` on the registry directory. -/
def readdir (K : Kernel) : Option (List String) :=
  K.dir.map (fun _ => "." :: ".." :: K.names)

/-- The call `mkdir(AFNETNS_RUN_DIR, mode)`: the return value, whether `errno` is
`EEXIST`, and the state afterwards. -/
def sys_mkdir (e : Env) (K : Kernel) : Int × Bool × Kernel :=
  match K.dir with
  | some _ => (-1, true, K)
  | none => if e.mkdir_ok then (0, false, { K with dir := some [] }) else (-1, false, K)

/-- The call `open(path, O_RDONLY|O_CREAT|O_EXCL, 0)`: creates the file the
path leads to; fails when that file exists, when the path leads to a directory
or nowhere, when the registry directory is missing, or when creation is not
permitted. -/
def sys_open_excl (e : Env) (name : String) (K : Kernel) : Int × Kernel :=
  match K.dir with
  | none => (-1, K)
  | some _ =>
    match resolve name with
    | Target.file w c =>
      if e.dir_w = true ∧ c ∉ (K.tab w).map Entry.name then
        (3, K.setTab w (K.tab w ++ [⟨c, e.new_ino, none⟩]))
      else (-1, K)
    | _ => (-1, K)

/-- The call `close(fd)`. -/
def sys_close (e : Env) : Int := if e.close_ok then 0 else -1

/-- The call `unshare(CLONE_NEWAFNET)`: moves the caller into a new namespace. -/
def sys_unshare (e : Env) (K : Kernel) : Int × Kernel :=
  match e.unshare with
  | some n => (0, K.withCur n)
  | none => (-1, K)

/-- Replacing what is mounted on the entries of a given name. -/
def set_mnt (name : String) (m : Option Ino) (es : List Entry) : List Entry :=
  es.map (fun x => if x.name = name then { x with mnt := m } else x)

/-- The call `mount("/proc/self/ns/afnet", path, "none", MS_BIND, NULL)`: binds
the caller's namespace on the file the path leads to. -/
def sys_mount (e : Env) (name : String) (K : Kernel) : Int × Kernel :=
  match K.dir with
  | none => (-1, K)
  | some _ =>
    match resolve name with
    | Target.file w c =>
      if e.mount_ok = true ∧ c ∈ (K.tab w).map Entry.name then
        (0, K.setTab w (set_mnt c (some K.cur) (K.tab w)))
      else (-1, K)
    | _ => (-1, K)

/-- The call `umount2(path, MNT_DETACH)`: fails when nothing is mounted there. -/
def sys_umount2 (e : Env) (name : String) (K : Kernel) : Int × Kernel :=
  match K.dir with
  | none => (-1, K)
  | some _ =>
    match resolve name with
    | Target.file w c =>
      if e.umount_ok = true ∧ ∃ x ∈ K.tab w, x.name = c ∧ x.mnt ≠ none then
        (0, K.setTab w (set_mnt c none (K.tab w)))
      else (-1, K)
    | _ => (-1, K)

/-- The call `unlink(path)`: fails when the file is missing, when it is still
a mount point (busy), when the path leads to a directory, or when removal is
not permitted. -/
def sys_unlink (e : Env) (name : String) (K : Kernel) : Int × Kernel :=
  match K.dir with
  | none => (-1, K)
  | some _ =>
    match resolve name with
    | Target.file w c =>
      if e.unlink_ok = true ∧ ∃ x ∈ K.tab w, x.name = c ∧ x.mnt = none then
        (0, K.setTab w ((K.tab w).filter (fun x => x.name ≠ c)))
      else (-1, K)
    | _ => (-1, K)

/-- The call `open(path, O_RDONLY | O_CLOEXEC)`: the descriptor, and the namespace the
opened object is, if it is one; a directory opens, and is no namespace. -/
def sys_open_rdonly (name : String) (K : Kernel) : Int × Option Ino :=
  match K.dir with
  | none => (-1, none)
  | some _ =>
    match resolve name with
    | Target.file w c =>
      match (K.tab w).find? (fun x => x.name = c) with
      | some x => (3, x.mnt)
      | none => (-1, none)
    | Target.dir => (3, none)
    | Target.bad => (-1, none)

/-- The call `setns(ns, CLONE_NEWAFNET)` on a descriptor referring to `target`. -/
def sys_setns (e : Env) (target : Option Ino) (K : Kernel) : Int × Kernel :=
  match target with
  | some n => if e.setns_ok then (0, K.withCur n) else (-1, K)
  | none => (-1, K)

/-- What the cache functions observe of a system state. -/
def observe (e : Env) (K : Kernel) : Sys :=
  { link := if e.procfs then some K.cur else none
    dir := readdir K
    stat := fun nm => (K.find nm).map Entry.stat }

/-- The function `afnetns_open` (lib/afnetns.c): the descriptor or `-1`, and the namespace
it refers to. -/
def afnetns_open (name : String) (K : Kernel) : Int × Option Ino × List Call :=
  let r := sys_open_rdonly name K
  (r.1, r.2, [Call.open_rdonly name r.1])

/-! ## ip/ipafnetns.c : the handle lifecycle -/

/-- The outcome of an operation: return value, state afterwards, and the
system calls made, in order. -/
structure Out where
  ret : Int
  k : Kernel
  tr : List Call
deriving DecidableEq, Repr

/-- The function `afnetns_list`: the return value and the lines printed. -/
def afnetns_list (K : Kernel) : Int × List String :=
  match readdir K with
  | none => (0, [])
  | some names => (0, names.filter (fun n => ¬ (n = "." ∨ n = "..")))

/-- The function `create_afnetns_dir`: `EEXIST` counts as success. -/
def create_afnetns_dir (e : Env) (K : Kernel) : Out :=
  let r := sys_mkdir e K
  let err := r.1
  if err = 0 ∨ r.2.1 = true then ⟨0, r.2.2, [Call.mkdir err r.2.1]⟩
  else ⟨err, r.2.2, [Call.mkdir err r.2.1]⟩

/-- The function `afnetns_delete`: `err` is assigned by `umount2` and then by
`unlink`, and returned. -/
def afnetns_delete (e : Env) (argv : List String) (K : Kernel) : Out :=
  match argv with
  | [] => ⟨-1, K, []⟩
  | name :: _ =>
    let u := sys_umount2 e name K
    let err := u.1
    let c1 := [Call.umount2 name err]
    let r := sys_unlink e name u.2
    let err := r.1
    ⟨err, r.2, c1 ++ [Call.unlink name err]⟩

/-- The function `afnetns_add`; the label `out_delete` is the call of
`afnetns_delete` whose result is dropped. -/
def afnetns_add (e : Env) (argv : List String) (K : Kernel) : Out :=
  match argv with
  | [] => ⟨-1, K, []⟩
  | name :: _ =>
    let d := create_afnetns_dir e K
    if d.ret ≠ 0 then d
    else
      let o := sys_open_excl e name d.k
      let fd := o.1
      let t1 := d.tr ++ [Call.open_excl name fd]
      if fd < 0 then ⟨fd, o.2, t1⟩
      else
        let err := sys_close e
        let t2 := t1 ++ [Call.close err]
        if err ≠ 0 then ⟨err, o.2, t2⟩
        else
          let u := sys_unshare e o.2
          let err := u.1
          let t3 := t2 ++ [Call.unshare err]
          if err < 0 then ⟨err, u.2, t3⟩
          else
            let m := sys_mount e name u.2
            let err := m.1
            let t4 := t3 ++ [Call.mount name err]
            if err < 0 then
              let del := afnetns_delete e argv m.2
              ⟨err, del.k, t4 ++ del.tr⟩
            else ⟨0, m.2, t4⟩

/-- The function `afnetns_switch`. -/
def afnetns_switch (e : Env) (name : String) (K : Kernel) : Out :=
  let a := afnetns_open name K
  let ns := a.1
  if ns < 0 then ⟨ns, K, a.2.2⟩
  else
    let s := sys_setns e a.2.1 K
    let err := s.1
    let t1 := a.2.2 ++ [Call.setns err]
    if err ≠ 0 then ⟨err, s.2, t1⟩
    else
      let err := sys_close e
      if err ≠ 0 then ⟨err, s.2, t1 ++ [Call.close err]⟩
      else ⟨0, s.2, t1 ++ [Call.close err]⟩

/-! ## Derived notions used in the statements -/

/-- The node the table holds for an inode: the first node with that inode in
the chain of its bucket. -/
def Cache.get (c : Cache) (i : Ino) : Option inode_cache :=
  (c (bucket i)).find? (fun n => decide (n.inode = i))

/-- Appending a node for an inode at the end of the chain of its bucket. -/
def Cache.push (c : Cache) (i : Ino) (nm : String) : Cache :=
  Function.update c (bucket i) (c (bucket i) ++ [⟨i, nm⟩])

/-- Every node sits in the chain of its bucket and no chain repeats an inode. -/
def Cache.WF (c : Cache) : Prop :=
  ∀ b : Fin 64, (∀ n ∈ c b, bucket n.inode = b) ∧ ((c b).map inode_cache.inode).Nodup

/-- The entries `fill_cache` stats successfully with a given inode. -/
def registered (o : Sys) (i : Ino) (nm : String) : Bool :=
  decide (nm ≠ "." ∧ nm ≠ ".." ∧ o.stat nm = some i)

/-- The state after one `fill_cache` of a starting process followed by a
sequence of `lookup_cache` calls. -/
def reach (o : Sys) (calls : List (Sys × Ino)) : Proc :=
  calls.foldl (fun p c => (lookup_cache c.1 p c.2).2) (fill_cache o Proc.fresh)

/-- The statics once the self inode is memoised as `me` and the table holds
for `i` either nothing or the synthesised name. -/
def Settled (me i : Ino) (p : Proc) : Prop :=
  p.self_initialized = true ∧ p.self_ino = me ∧
    (p.cache.get i = none ∨ p.cache.get i = some ⟨i, synth i (decide (me = i))⟩)

/-- A sample observation: the caller is in namespace 5, and the registry
holds `a` (inode 69) and the aliases `b`, `c` (both inode 5). -/
def demo_sys : Sys :=
  { link := some 5
    dir := some [".", "..", "a", "b", "c"]
    stat := fun n =>
      if n = "a" then some 69 else if n = "b" then some 5 else if n = "c" then some 5
      else none }

/-- The sample observation when `/proc/self/ns/afnet` cannot be resolved. -/
def demo_sys_unresolved : Sys := { demo_sys with link := none }

/-- An environment that permits everything; a new file gets inode 10 and a
new namespace inode 100. -/
def demo_env : Env :=
  { mkdir_ok := true, dir_w := true, unlink_ok := true, new_ino := 10, close_ok := true,
    unshare := some 100, mount_ok := true, umount_ok := true, setns_ok := true, procfs := true }

/-- A system without registry directory, the caller in namespace 50. -/
def demo_kernel : Kernel := { dir := none, ext := [], cur := 50 }

/-- A registry holding the bare placeholder `a`. -/
def demo_placeholder : Kernel := { dir := some [⟨"a", 10, none⟩], ext := [], cur := 50 }

/-- A registry holding the handle `a` of namespace 100. -/
def demo_mounted : Kernel := { dir := some [⟨"a", 10, some 100⟩], ext := [], cur := 50 }

/-- The statics once the self inode is memoised as `me` and the table holds
the name `s` for `i`. -/
def Pinned (me i : Ino) (s : String) (p : Proc) : Prop :=
  p.self_initialized = true ∧ p.self_ino = me ∧ p.cache.get i = some ⟨i, s⟩

/-- What a list must satisfy to be stored as one of the two tables and read
back unchanged: in the registry, names are components. -/
def Fits (w : Bool) (es : List Entry) : Prop :=
  w = true → ∀ x ∈ es, isComponent x.name = true

/-- The state once `create_afnetns_dir` has succeeded. -/
def Kernel.made (K : Kernel) : Kernel :=
  match K.dir with
  | some _ => K
  | none => { K with dir := some [] }

/-! ## Lemmas on the cache -/

theorem push_same (c : Cache) (i : Ino) (nm : String) :
    c.push i nm (bucket i) = c (bucket i) ++ [⟨i, nm⟩] := by
  simp [Cache.push]

theorem push_other (c : Cache) (i : Ino) (nm : String) (b : Fin 64) (hb : b ≠ bucket i) :
    c.push i nm b = c b := by
  simp [Cache.push, Function.update_noteq hb]

theorem bucket_val (i : Ino) : (bucket i).val = i % 64 := by
  show i &&& 63 = i % 64
  exact Nat.and_pow_two_sub_one_eq_mod i 6

theorem walk_getElem? (i : Ino) (l : List inode_cache) :
    l[walk i l]? = l.find? (fun n => decide (n.inode = i)) := by
  induction l with
  | nil => simp [walk]
  | cons n rest ih =>
    by_cases h : n.inode = i
    · simp [walk, h]
    · simp [walk, h, ih]

theorem walk_of_find_none (i : Ino) (l : List inode_cache)
    (h : l.find? (fun n => decide (n.inode = i)) = none) : walk i l = l.length := by
  induction l with
  | nil => simp [walk]
  | cons n rest ih =>
    by_cases hn : n.inode = i
    · simp [hn] at h
    · simp [hn] at h
      simp [walk, hn, ih (by simpa using h)]

theorem deref_lookup_node (c : Cache) (i : Ino) :
    deref c (lookup_node c i) = c.get i := by
  simp [deref, lookup_node, Cache.get, walk_getElem?]

theorem store_lookup_node (c : Cache) (i : Ino) (nm : String) (h : c.get i = none) :
    store c (lookup_node c i) ⟨i, nm⟩ = c.push i nm := by
  simp only [store, lookup_node, Cache.push]
  rw [walk_of_find_none i _ h, List.take_length]

theorem get_update_append (c : Cache) (i j : Ino) (nm : String) (h : c.get i = none) :
    (c.push i nm).get j = if j = i then some ⟨i, nm⟩ else c.get j := by
  by_cases hb : bucket j = bucket i
  · by_cases hj : j = i
    · subst hj
      simp only [Cache.get] at h
      simp [Cache.get, push_same, h]
    · have hij : ¬ i = j := fun hh => hj hh.symm
      simp only [Cache.get, hj, if_false]
      rw [hb, push_same, List.find?_append]
      simp [hij]
  · have hj : j ≠ i := fun hh => hb (by rw [hh])
    simp [Cache.get, push_other c i nm _ hb, hj]

theorem wf_empty : Cache.WF Cache.empty := by
  intro b
  simp [Cache.empty]

theorem wf_update_append (c : Cache) (i : Ino) (nm : String) (hwf : c.WF)
    (h : c.get i = none) :
    (c.push i nm).WF := by
  intro b
  by_cases hb : b = bucket i
  · subst hb
    rw [push_same]
    refine ⟨?_, ?_⟩
    · intro n hn
      rcases List.mem_append.mp hn with hn | hn
      · exact (hwf _).1 n hn
      · simp at hn
        rw [hn]
    · rw [List.map_append, List.nodup_append]
      refine ⟨(hwf _).2, by simp, ?_⟩
      intro a ha hb
      simp at hb
      subst hb
      rcases List.mem_map.mp ha with ⟨n, hn, hna⟩
      simp only [Cache.get, List.find?_eq_none] at h
      have := h n hn
      simp only [decide_eq_true_eq] at this
      exact this hna
  · rw [push_other c i nm b hb]
    exact hwf b

/-- The effect of `fill_entry` in terms of the finite map. -/
theorem fill_entry_eq (o : Sys) (me : Ino) (c : Cache) (d_name : String) :
    fill_entry o me c d_name =
      if d_name = "." ∨ d_name = ".." then c
      else match o.stat d_name with
        | none => c
        | some inode =>
          match c.get inode with
          | some _ => c
          | none => c.push inode (d_name ++ (if me = inode then ",self" else "")) := by
  unfold fill_entry
  split
  · rfl
  · cases hs : o.stat d_name with
    | none => rfl
    | some inode =>
      simp only [deref_lookup_node]
      cases hg : c.get inode with
      | some n => rfl
      | none =>
        simp only [store_lookup_node c inode _ hg]
        by_cases hme : me = inode <;> simp [hme]

theorem fill_entry_wf (o : Sys) (me : Ino) (c : Cache) (d_name : String) (hwf : c.WF) :
    (fill_entry o me c d_name).WF := by
  rw [fill_entry_eq]
  split
  · exact hwf
  · split
    · exact hwf
    · split
      · exact hwf
      · next hg => exact wf_update_append c _ _ hwf hg

theorem foldl_fill_entry_wf (o : Sys) (me : Ino) (names : List String) (c : Cache)
    (hwf : c.WF) : (names.foldl (fill_entry o me) c).WF := by
  induction names generalizing c with
  | nil => exact hwf
  | cons nm rest ih => exact ih _ (fill_entry_wf o me c nm hwf)

theorem get_fill_entry (o : Sys) (me i : Ino) (c : Cache) (nm : String) :
    (fill_entry o me c nm).get i =
      match c.get i with
      | some n => some n
      | none => if registered o i nm then
          some ⟨i, nm ++ (if me = i then ",self" else "")⟩ else none := by
  rw [fill_entry_eq]
  by_cases hdot : nm = "." ∨ nm = ".."
  · have : registered o i nm = false := by
      simp only [registered, decide_eq_false_iff_not]
      tauto
    simp only [hdot, if_true, this]
    cases c.get i <;> simp
  · simp only [hdot, if_false]
    have hd1 : nm ≠ "." := fun h => hdot (Or.inl h)
    have hd2 : nm ≠ ".." := fun h => hdot (Or.inr h)
    cases hs : o.stat nm with
    | none =>
      have : registered o i nm = false := by simp [registered, hs]
      simp only [this]
      cases c.get i <;> simp
    | some j =>
      simp only
      cases hg : c.get j with
      | some n =>
        simp only
        by_cases hji : j = i
        · subst hji
          simp [hg]
        · have : registered o i nm = false := by simp [registered, hs, hji]
          simp only [this]
          cases c.get i <;> simp
      | none =>
        simp only
        rw [get_update_append c j i _ hg]
        by_cases hij : i = j
        · subst hij
          simp [hg, registered, hs, hd1, hd2]
        · have : registered o i nm = false := by
            simp only [registered, hs, decide_eq_false_iff_not]
            intro h
            exact hij (Option.some.inj h.2.2).symm
          simp only [this, hij, if_false]
          cases c.get i <;> simp

theorem get_foldl_fill_entry (o : Sys) (me i : Ino) (names : List String) (c : Cache) :
    (names.foldl (fill_entry o me) c).get i =
      match c.get i with
      | some n => some n
      | none => (names.find? (registered o i)).map
          (fun nm => ⟨i, nm ++ (if me = i then ",self" else "")⟩) := by
  induction names generalizing c with
  | nil => cases hg : c.get i <;> simp [hg]
  | cons nm rest ih =>
    rw [List.foldl_cons, ih, get_fill_entry]
    cases hg : c.get i with
    | some n => rfl
    | none =>
      by_cases hr : registered o i nm = true
      · simp [hr]
      · simp [hr]

/-- The effect of `lookup_cache` in terms of the finite map. -/
theorem lookup_cache_eq (o : Sys) (p : Proc) (i : Ino) :
    lookup_cache o p i =
      match p.cache.get i with
      | some n => (some n.name, p)
      | none =>
        match self_inode o p with
        | (none, p1) => (none, p1)
        | (some me, p1) =>
          (some (synth i (decide (me = i))),
            { p1 with cache := p1.cache.push i (synth i (decide (me = i))) }) := by
  unfold lookup_cache
  simp only [deref_lookup_node]
  cases hg : p.cache.get i with
  | some n => rfl
  | none =>
    simp only
    have hc : (self_inode o p).2.cache = p.cache := by
      unfold self_inode
      split
      · rfl
      · split <;> rfl
    rcases hs : self_inode o p with ⟨r, p1⟩
    rw [hs] at hc
    simp only at hc
    cases r with
    | none => rfl
    | some me =>
      simp only
      have hl : lookup_node p.cache i = lookup_node p1.cache i := by rw [hc]
      rw [hl, store_lookup_node p1.cache i _ (by rw [hc]; exact hg)]

theorem self_inode_cache (o : Sys) (p : Proc) : (self_inode o p).2.cache = p.cache := by
  unfold self_inode
  split
  · rfl
  · split <;> rfl

theorem fill_cache_wf (o : Sys) (p : Proc) (hwf : p.cache.WF) : (fill_cache o p).cache.WF := by
  unfold fill_cache
  have hc := self_inode_cache o p
  rcases hs : self_inode o p with ⟨r, p1⟩
  rw [hs] at hc
  simp only at hc
  cases r with
  | none => simpa [hc] using hwf
  | some me =>
    simp only
    cases o.dir with
    | none => simpa [hc] using hwf
    | some names =>
      simp only
      exact foldl_fill_entry_wf o me names _ (by rw [hc]; exact hwf)

theorem lookup_cache_wf (o : Sys) (p : Proc) (i : Ino) (hwf : p.cache.WF) :
    (lookup_cache o p i).2.cache.WF := by
  rw [lookup_cache_eq]
  cases hg : p.cache.get i with
  | some n => exact hwf
  | none =>
    simp only
    have hc := self_inode_cache o p
    rcases hs : self_inode o p with ⟨r, p1⟩
    rw [hs] at hc
    simp only at hc
    cases r with
    | none => simpa [hc] using hwf
    | some me =>
      simp only
      exact wf_update_append p1.cache i _ (by rw [hc]; exact hwf) (by rw [hc]; exact hg)

theorem reach_wf (o : Sys) (calls : List (Sys × Ino)) : (reach o calls).cache.WF := by
  unfold reach
  generalize hp : fill_cache o Proc.fresh = p
  have hwf : p.cache.WF := by
    rw [← hp]
    exact fill_cache_wf o _ wf_empty
  clear hp
  induction calls generalizing p with
  | nil => exact hwf
  | cons c rest ih => exact ih _ (lookup_cache_wf c.1 p c.2 hwf)

theorem wf_unique (c : Cache) (hwf : c.WF) (b b' : Fin 64) (k k' : Nat) (n n' : inode_cache)
    (h : (c b)[k]? = some n) (h' : (c b')[k']? = some n') (hi : n.inode = n'.inode) :
    b = b' ∧ k = k' := by
  have hb : bucket n.inode = b := (hwf b).1 n (List.getElem?_mem h)
  have hb' : bucket n'.inode = b' := (hwf b').1 n' (List.getElem?_mem h')
  have hbb : b = b' := by rw [← hb, ← hb', hi]
  subst hbb
  refine ⟨rfl, ?_⟩
  have hnd := (hwf b).2
  rw [List.nodup_iff_getElem?_ne_getElem?] at hnd
  have hk : k < (List.map inode_cache.inode (c b)).length := by
    rw [List.length_map]
    exact (List.getElem?_eq_some.mp h).1
  have hk' : k' < (List.map inode_cache.inode (c b)).length := by
    rw [List.length_map]
    exact (List.getElem?_eq_some.mp h').1
  have e1 : (List.map inode_cache.inode (c b))[k]? = some n.inode := by
    rw [List.getElem?_map, h]; rfl
  have e2 : (List.map inode_cache.inode (c b))[k']? = some n.inode := by
    rw [List.getElem?_map, h', hi]; rfl
  rcases Nat.lt_trichotomy k k' with hlt | heq | hgt
  · exact absurd (e1.trans e2.symm) (hnd k k' hlt hk')
  · exact heq
  · exact absurd (e2.trans e1.symm) (hnd k' k hgt hk)

theorem wf_lookup_node_found (c : Cache) (hwf : c.WF) (i : Ino) (b : Fin 64) (n : inode_cache)
    (hn : n ∈ c b) (hi : n.inode = i) :
    b = (lookup_node c i).1 ∧ (c b)[(lookup_node c i).2]? = some n := by
  have hb : bucket i = b := by rw [← hi]; exact (hwf b).1 n hn
  subst hb
  refine ⟨rfl, ?_⟩
  show (c (bucket i))[walk i (c (bucket i))]? = some n
  rw [walk_getElem?]
  cases hf : (c (bucket i)).find? (fun n => decide (n.inode = i)) with
  | none =>
    rw [List.find?_eq_none] at hf
    exact absurd hi (by simpa using hf n hn)
  | some n' =>
    have hn' : n' ∈ c (bucket i) := List.mem_of_find?_eq_some hf
    have hi' : n'.inode = i := by simpa using List.find?_some hf
    rcases List.getElem?_of_mem hn with ⟨k, hk⟩
    rcases List.getElem?_of_mem hn' with ⟨k', hk'⟩
    have := (wf_unique c hwf _ _ k k' n n' hk hk' (hi.trans hi'.symm)).2
    subst this
    rw [hk] at hk'
    exact hk'.symm

theorem lookup_node_absent (c : Cache) (i : Ino) (h : ∀ b n, n ∈ c b → n.inode ≠ i) :
    (lookup_node c i).1.val = i % 64 ∧
      (lookup_node c i).2 = (c (lookup_node c i).1).length ∧
      deref c (lookup_node c i) = none := by
  have hg : c.get i = none := by
    simp only [Cache.get, List.find?_eq_none]
    intro n hn
    simpa using h _ n hn
  refine ⟨bucket_val i, walk_of_find_none i _ hg, ?_⟩
  rw [deref_lookup_node, hg]

theorem get_empty (i : Ino) : Cache.empty.get i = none := by
  simp [Cache.get, Cache.empty]

theorem fill_cache_fresh_dir (o : Sys) (me : Ino) (names : List String)
    (hlink : o.link = some me) (hdir : o.dir = some names) :
    fill_cache o Proc.fresh =
      { self_initialized := true, self_ino := me,
        cache := names.foldl (fill_entry o me) Cache.empty, initialized := false } := by
  simp [fill_cache, self_inode, Proc.fresh, hlink, hdir]

theorem fill_cache_fresh_nodir (o : Sys) (me : Ino)
    (hlink : o.link = some me) (hdir : o.dir = none) :
    fill_cache o Proc.fresh =
      { self_initialized := true, self_ino := me, cache := Cache.empty, initialized := false } := by
  simp [fill_cache, self_inode, Proc.fresh, hlink, hdir]

theorem fill_cache_fresh_nolink (o : Sys) (hlink : o.link = none) :
    fill_cache o Proc.fresh = Proc.fresh := by
  simp [fill_cache, self_inode, Proc.fresh, hlink]

/-- The table of a starting process after `fill_cache` when the self inode
resolves to `me`: what it holds for an inode is the first registered name. -/
theorem get_fill_cache_fresh (o : Sys) (me i : Ino) (hlink : o.link = some me) :
    (fill_cache o Proc.fresh).self_initialized = true ∧
    (fill_cache o Proc.fresh).self_ino = me ∧
    (fill_cache o Proc.fresh).cache.get i =
      ((o.dir.getD []).find? (registered o i)).map
        (fun nm => ⟨i, nm ++ (if me = i then ",self" else "")⟩) := by
  cases hdir : o.dir with
  | none =>
    rw [fill_cache_fresh_nodir o me hlink hdir]
    simp [get_empty]
  | some names =>
    rw [fill_cache_fresh_dir o me names hlink hdir]
    simp [get_foldl_fill_entry, get_empty]

theorem find_registered_first (o : Sys) (i : Ino) (pre post : List String) (nm : String)
    (hnm : nm ≠ "." ∧ nm ≠ ".." ∧ o.stat nm = some i)
    (hpre : ∀ x ∈ pre, x ≠ "." → x ≠ ".." → o.stat x ≠ some i) :
    (pre ++ nm :: post).find? (registered o i) = some nm := by
  have h1 : pre.find? (registered o i) = none := by
    rw [List.find?_eq_none]
    intro x hx
    simp only [registered, decide_eq_true_eq]
    intro h
    exact hpre x hx h.1 h.2.1 h.2.2
  have h2 : registered o i nm = true := by
    simp only [registered, decide_eq_true_eq]
    exact hnm
  rw [List.find?_append, h1, List.find?_cons_of_pos _ h2]
  rfl

theorem find_registered_none (o : Sys) (i : Ino) (names : List String)
    (h : ∀ nm ∈ names, nm ≠ "." → nm ≠ ".." → o.stat nm ≠ some i) :
    names.find? (registered o i) = none := by
  rw [List.find?_eq_none]
  intro x hx
  simp only [registered, decide_eq_true_eq]
  intro hh
  exact h x hx hh.1 hh.2.1 hh.2.2

theorem lookup_cache_settled (me i : Ino) (o : Sys) (p : Proc) (j : Ino)
    (h : Settled me i p) :
    Settled me i (lookup_cache o p j).2 ∧
      (j = i → (lookup_cache o p j).1 = some (synth i (decide (me = i))) ∧
        (lookup_cache o p j).2.cache.get i = some ⟨i, synth i (decide (me = i))⟩) := by
  obtain ⟨h1, h2, h3⟩ := h
  have hs : self_inode o p = (some me, p) := by
    simp [self_inode, h1, h2]
  rw [lookup_cache_eq]
  cases hg : p.cache.get j with
  | some n =>
    refine ⟨⟨h1, h2, h3⟩, ?_⟩
    intro hji
    subst hji
    rcases h3 with h3 | h3
    · rw [h3] at hg
      exact absurd hg (by simp)
    · rw [h3] at hg
      cases hg
      exact ⟨rfl, h3⟩
  | none =>
    simp only [hs]
    have hget := get_update_append p.cache j i (synth j (decide (me = j))) hg
    refine ⟨⟨h1, h2, ?_⟩, ?_⟩
    · show (p.cache.push j (synth j (decide (me = j)))).get i = none ∨
          (p.cache.push j (synth j (decide (me = j)))).get i = _
      rw [hget]
      by_cases hij : i = j
      · subst hij
        right
        simp
      · simp only [hij, if_false]
        exact h3
    · intro hji
      subst hji
      refine ⟨rfl, ?_⟩
      show (p.cache.push j (synth j (decide (me = j)))).get j = _
      rw [hget]
      simp

theorem lookup_name_settled (me i : Ino) (o : Sys) (p : Proc) (j : Ino)
    (hinit : p.initialized = true) (h : Settled me i p) :
    (afnetns_lookup_name o p j).2.initialized = true ∧
    Settled me i (afnetns_lookup_name o p j).2 ∧
      (j = i → (afnetns_lookup_name o p j).1 = some (synth i (decide (me = i)))) := by
  have e : afnetns_lookup_name o p j = lookup_cache o p j := by
    simp [afnetns_lookup_name, hinit]
  rw [e]
  have hl := lookup_cache_settled me i o p j h
  refine ⟨?_, hl.1, fun hj => (hl.2 hj).1⟩
  rw [lookup_cache_eq]
  cases hg : p.cache.get j with
  | some n => exact hinit
  | none =>
    have hs : self_inode o p = (some me, p) := by
      simp [self_inode, h.1, h.2.1]
    simp only [hs]
    exact hinit

theorem lookups_settled (me i : Ino) (calls : List (Sys × Ino)) (p : Proc)
    (hinit : p.initialized = true) (h : Settled me i p) (k : Nat) (o : Sys)
    (hk : calls[k]? = some (o, i)) :
    (lookups p calls).1[k]? = some (some (synth i (decide (me = i)))) := by
  induction calls generalizing p k with
  | nil => simp at hk
  | cons c rest ih =>
    obtain ⟨oc, j⟩ := c
    have hstep := lookup_name_settled me i oc p j hinit h
    cases k with
    | zero =>
      simp only [List.getElem?_cons_zero, Option.some.injEq, Prod.mk.injEq] at hk
      simp only [lookups, List.getElem?_cons_zero]
      rw [hstep.2.2 hk.2]
    | succ k =>
      simp only [List.getElem?_cons_succ] at hk
      simp only [lookups, List.getElem?_cons_succ]
      exact ih _ hstep.1 hstep.2.1 k hk

theorem first_lookup_settled (me i : Ino) (o : Sys) (j : Ino) (hlink : o.link = some me)
    (hi : ∀ nm ∈ o.dir.getD [], nm ≠ "." → nm ≠ ".." → o.stat nm ≠ some i) :
    (afnetns_lookup_name o Proc.fresh j).2.initialized = true ∧
    Settled me i (afnetns_lookup_name o Proc.fresh j).2 ∧
      (j = i → (afnetns_lookup_name o Proc.fresh j).1 = some (synth i (decide (me = i)))) := by
  obtain ⟨f1, f2, f3⟩ := get_fill_cache_fresh o me i hlink
  rw [find_registered_none o i _ hi] at f3
  let p1 : Proc := { fill_cache o Proc.fresh with initialized := true }
  have hp1 : Settled me i p1 := ⟨f1, f2, Or.inl f3⟩
  have e : afnetns_lookup_name o Proc.fresh j = afnetns_lookup_name o p1 j := by
    simp [afnetns_lookup_name, Proc.fresh, p1]
  rw [e]
  exact lookup_name_settled me i o p1 j rfl hp1

theorem self_inode_none (o : Sys) (p : Proc) (h : (self_inode o p).1 = none) :
    p.self_initialized = false ∧ o.link = none := by
  unfold self_inode at h
  cases hsi : p.self_initialized with
  | true => simp [hsi] at h
  | false =>
    cases hl : o.link with
    | none => exact ⟨rfl, rfl⟩
    | some n => simp [hsi, hl] at h

theorem lookup_cache_none (o : Sys) (p : Proc) (i : Ino)
    (h : (lookup_cache o p i).1 = none) : p.self_initialized = false ∧ o.link = none := by
  rw [lookup_cache_eq] at h
  cases hg : p.cache.get i with
  | some n => simp [hg] at h
  | none =>
    simp only [hg] at h
    rcases hs : self_inode o p with ⟨r, p1⟩
    cases r with
    | none => exact self_inode_none o p (by rw [hs])
    | some me => simp [hs] at h

theorem fill_cache_self_initialized (o : Sys) (p : Proc)
    (h : (fill_cache o p).self_initialized = false) : p.self_initialized = false := by
  cases hsi : p.self_initialized with
  | false => rfl
  | true =>
    exfalso
    revert h
    simp only [fill_cache, self_inode, hsi, if_true]
    cases o.dir <;> simp [hsi]

/-- C5: for an inode `i` that no registry entry carries when the cache is
filled, and with the self inode resolving to `me` on the first lookup, every
call `afnetns_lookup_name(i)` in a run of lookups (of arbitrary inodes, under
arbitrary later observations) answers `afnet:[i]`, with `,self` appended
exactly when `i` is the self inode. -/
theorem lookup_unregistered_stable (me i : Ino) (o : Sys) (j : Ino)
    (rest : List (Sys × Ino)) (hlink : o.link = some me)
    (hi : ∀ nm ∈ o.dir.getD [], nm ≠ "." → nm ≠ ".." → o.stat nm ≠ some i)
    (k : Nat) (ok : Sys) (hk : ((o, j) :: rest)[k]? = some (ok, i)) :
    (lookups Proc.fresh ((o, j) :: rest)).1[k]? =
      some (some ("afnet:[" ++ toString i ++ "]" ++ (if i = me then ",self" else ""))) := by
  have hsyn : synth i (decide (me = i)) =
      "afnet:[" ++ toString i ++ "]" ++ (if i = me then ",self" else "") := by
    by_cases hme : me = i
    · subst hme
      simp [synth]
    · have : ¬ i = me := fun h => hme h.symm
      simp [synth, hme, this]
  rw [← hsyn]
  have hfirst := first_lookup_settled me i o j hlink hi
  cases k with
  | zero =>
    simp only [List.getElem?_cons_zero, Option.some.injEq, Prod.mk.injEq] at hk
    simp only [lookups, List.getElem?_cons_zero]
    rw [hfirst.2.2 hk.2]
  | succ k =>
    simp only [List.getElem?_cons_succ] at hk
    simp only [lookups, List.getElem?_cons_succ]
    exact lookups_settled me i rest _ hfirst.1 hfirst.2.1 k ok hk

/-- Witness for C5: inode 133 is looked up first and fourth in a run; the
fourth answer is the synthesised name. -/
theorem lookup_unregistered_stable_witness :
    demo_sys.link = some 5 ∧
    (lookups Proc.fresh [(demo_sys, 133), (demo_sys, 69), (demo_sys_unresolved, 7),
      (demo_sys, 133)]).1[3]? = some (some ("afnet:[" ++ toString 133 ++ "]" ++
        (if 133 = 5 then ",self" else ""))) :=
  ⟨rfl, lookup_unregistered_stable 5 133 demo_sys 133
    [(demo_sys, 69), (demo_sys_unresolved, 7), (demo_sys, 133)] rfl (by decide) 3 demo_sys rfl⟩

theorem lookup_cache_pinned (me i : Ino) (s : String) (o : Sys) (p : Proc) (j : Ino)
    (h : Pinned me i s p) :
    Pinned me i s (lookup_cache o p j).2 ∧ (j = i → (lookup_cache o p j).1 = some s) := by
  obtain ⟨h1, h2, h3⟩ := h
  have hs : self_inode o p = (some me, p) := by
    simp [self_inode, h1, h2]
  rw [lookup_cache_eq]
  cases hg : p.cache.get j with
  | some n =>
    refine ⟨⟨h1, h2, h3⟩, ?_⟩
    intro hji
    subst hji
    rw [h3] at hg
    cases hg
    rfl
  | none =>
    have hij : i ≠ j := by
      intro hh
      subst hh
      rw [h3] at hg
      exact absurd hg (by simp)
    simp only [hs]
    have hget := get_update_append p.cache j i (synth j (decide (me = j))) hg
    refine ⟨⟨h1, h2, ?_⟩, fun hji => absurd hji.symm hij⟩
    show (p.cache.push j (synth j (decide (me = j)))).get i = _
    rw [hget, if_neg hij]
    exact h3

theorem lookup_name_pinned (me i : Ino) (s : String) (o : Sys) (p : Proc) (j : Ino)
    (hinit : p.initialized = true) (h : Pinned me i s p) :
    (afnetns_lookup_name o p j).2.initialized = true ∧
    Pinned me i s (afnetns_lookup_name o p j).2 ∧
      (j = i → (afnetns_lookup_name o p j).1 = some s) := by
  have e : afnetns_lookup_name o p j = lookup_cache o p j := by
    simp [afnetns_lookup_name, hinit]
  rw [e]
  have hl := lookup_cache_pinned me i s o p j h
  refine ⟨?_, hl.1, hl.2⟩
  rw [lookup_cache_eq]
  cases hg : p.cache.get j with
  | some n => exact hinit
  | none =>
    have hs : self_inode o p = (some me, p) := by
      simp [self_inode, h.1, h.2.1]
    simp only [hs]
    exact hinit

theorem lookups_pinned (me i : Ino) (s : String) (calls : List (Sys × Ino)) (p : Proc)
    (hinit : p.initialized = true) (h : Pinned me i s p) (k : Nat) (o : Sys)
    (hk : calls[k]? = some (o, i)) :
    (lookups p calls).1[k]? = some (some s) := by
  induction calls generalizing p k with
  | nil => simp at hk
  | cons c rest ih =>
    obtain ⟨oc, j⟩ := c
    have hstep := lookup_name_pinned me i s oc p j hinit h
    cases k with
    | zero =>
      simp only [List.getElem?_cons_zero, Option.some.injEq, Prod.mk.injEq] at hk
      simp only [lookups, List.getElem?_cons_zero]
      rw [hstep.2.2 hk.2]
    | succ k =>
      simp only [List.getElem?_cons_succ] at hk
      simp only [lookups, List.getElem?_cons_succ]
      exact ih _ hstep.1 hstep.2.1 k hk

/-- C8: in a run of lookups by a process whose first call resolves the self
inode to `me` and enumerates the registry as `pre ++ nm :: post`, where `nm`
is stat'ed with inode `i` and no entry of `pre` is, every call
`afnetns_lookup_name(i)` of the run (the first one for `i`, whether or not
other inodes were looked up before it, and every later one) answers `nm`,
followed by `,self` exactly when `i` is the self inode; no later entry with
the same inode is ever answered. -/
theorem first_lookup_first_alias (o : Sys) (me i : Ino) (pre post : List String)
    (nm : String) (j : Ino) (rest : List (Sys × Ino))
    (hlink : o.link = some me) (hdir : o.dir = some (pre ++ nm :: post))
    (hnm : nm ≠ "." ∧ nm ≠ ".." ∧ o.stat nm = some i)
    (hpre : ∀ x ∈ pre, x ≠ "." → x ≠ ".." → o.stat x ≠ some i)
    (k : Nat) (ok : Sys) (hk : ((o, j) :: rest)[k]? = some (ok, i)) :
    (lookups Proc.fresh ((o, j) :: rest)).1[k]? =
      some (some (nm ++ (if i = me then ",self" else ""))) := by
  obtain ⟨f1, f2, f3⟩ := get_fill_cache_fresh o me i hlink
  rw [hdir] at f3
  simp only [Option.getD_some] at f3
  rw [find_registered_first o i pre post nm hnm hpre] at f3
  have hsfx : (nm ++ if me = i then ",self" else "") = nm ++ (if i = me then ",self" else "") := by
    by_cases hme : me = i
    · subst hme
      simp
    · have : ¬ i = me := fun h => hme h.symm
      simp [hme, this]
  simp only [Option.map_some', hsfx] at f3
  let p1 : Proc := { fill_cache o Proc.fresh with initialized := true }
  have hp1 : Pinned me i (nm ++ (if i = me then ",self" else "")) p1 := ⟨f1, f2, f3⟩
  have e : afnetns_lookup_name o Proc.fresh j = afnetns_lookup_name o p1 j := by
    simp [afnetns_lookup_name, Proc.fresh, p1]
  have hfirst := lookup_name_pinned me i _ o p1 j rfl hp1
  rw [← e] at hfirst
  cases k with
  | zero =>
    simp only [List.getElem?_cons_zero, Option.some.injEq, Prod.mk.injEq] at hk
    simp only [lookups, List.getElem?_cons_zero]
    rw [hfirst.2.2 hk.2]
  | succ k =>
    simp only [List.getElem?_cons_succ] at hk
    simp only [lookups, List.getElem?_cons_succ]
    exact lookups_pinned me i _ rest _ hfirst.1 hfirst.2.1 k ok hk

/-- Witness for C8: `b` and `c` alias inode 5, the self inode; in a run that
first looks up 133 and 69, the lookups of 5 (third and fifth call) answer
`b,self`. -/
theorem first_lookup_first_alias_witness :
    demo_sys.link = some 5 ∧ demo_sys.stat "b" = some 5 ∧ demo_sys.stat "c" = some 5 ∧
    (lookups Proc.fresh [(demo_sys, 133), (demo_sys, 69), (demo_sys, 5),
      (demo_sys_unresolved, 7), (demo_sys, 5)]).1[2]? =
        some (some ("b" ++ (if 5 = 5 then ",self" else ""))) ∧
    (lookups Proc.fresh [(demo_sys, 133), (demo_sys, 69), (demo_sys, 5),
      (demo_sys_unresolved, 7), (demo_sys, 5)]).1[4]? =
        some (some ("b" ++ (if 5 = 5 then ",self" else ""))) :=
  ⟨rfl, rfl, rfl,
    first_lookup_first_alias demo_sys 5 5 [".", "..", "a"] ["c"] "b" 133
      [(demo_sys, 69), (demo_sys, 5), (demo_sys_unresolved, 7), (demo_sys, 5)]
      rfl rfl (by decide) (by decide) 2 demo_sys rfl,
    first_lookup_first_alias demo_sys 5 5 [".", "..", "a"] ["c"] "b" 133
      [(demo_sys, 69), (demo_sys, 5), (demo_sys_unresolved, 7), (demo_sys, 5)]
      rfl rfl (by decide) (by decide) 4 demo_sys rfl⟩

/-- C9: in the table reached by one `fill_cache` and any sequence of
`lookup_cache` calls, every node lies in chain `inode % 64`, no two nodes carry
the same inode, and `lookup_node(i)` is the slot of the node with inode `i`
when there is one and the empty slot at the end of chain `i % 64` otherwise. -/
theorem reach_cache_invariant (o : Sys) (calls : List (Sys × Ino)) :
    (∀ (b : Fin 64) (n : inode_cache), n ∈ (reach o calls).cache b →
      b = bucket n.inode ∧ b.val = n.inode % 64) ∧
    (∀ (b b' : Fin 64) (k k' : Nat) (n n' : inode_cache),
      ((reach o calls).cache b)[k]? = some n →
      ((reach o calls).cache b')[k']? = some n' → n.inode = n'.inode → b = b' ∧ k = k') ∧
    (∀ (i : Ino) (b : Fin 64) (n : inode_cache), n ∈ (reach o calls).cache b → n.inode = i →
      b = (lookup_node (reach o calls).cache i).1 ∧
      deref (reach o calls).cache (lookup_node (reach o calls).cache i) = some n) ∧
    (∀ i : Ino, (∀ (b : Fin 64) (n : inode_cache), n ∈ (reach o calls).cache b → n.inode ≠ i) →
      (lookup_node (reach o calls).cache i).1.val = i % 64 ∧
      (lookup_node (reach o calls).cache i).2 =
        ((reach o calls).cache (lookup_node (reach o calls).cache i).1).length ∧
      deref (reach o calls).cache (lookup_node (reach o calls).cache i) = none) := by
  have hwf := reach_wf o calls
  refine ⟨?_, ?_, ?_, ?_⟩
  · intro b n hn
    have hb := (hwf b).1 n hn
    refine ⟨hb.symm, ?_⟩
    rw [← hb]
    exact bucket_val _
  · intro b b' k k' n n' h h' hi
    exact wf_unique _ hwf b b' k k' n n' h h' hi
  · intro i b n hn hi
    have h := wf_lookup_node_found _ hwf i b n hn hi
    refine ⟨h.1, ?_⟩
    have h2 := h.2
    rw [h.1] at h2
    exact h2
  · intro i h
    exact lookup_node_absent _ i h

/-- Witness for C9: after filling from the sample registry and looking up
the inodes 133 and 69, the node of inode 69 is the one `lookup_node` finds,
in chain `69 % 64 = 5`. -/
theorem reach_cache_invariant_witness :
    (⟨69, "a"⟩ : inode_cache) ∈ (reach demo_sys [(demo_sys, 133), (demo_sys, 69)]).cache 5 ∧
    ((5 : Fin 64) = (lookup_node (reach demo_sys [(demo_sys, 133), (demo_sys, 69)]).cache 69).1 ∧
      deref (reach demo_sys [(demo_sys, 133), (demo_sys, 69)]).cache
        (lookup_node (reach demo_sys [(demo_sys, 133), (demo_sys, 69)]).cache 69)
        = some ⟨69, "a"⟩) :=
  ⟨by decide, (reach_cache_invariant demo_sys [(demo_sys, 133), (demo_sys, 69)]).2.2.1
    69 5 ⟨69, "a"⟩ (by decide) rfl⟩

/-- C6, as stated, fails: inode 69 is the inode of the registry entry `a`,
yet when the self inode cannot be resolved the first lookup of 69 answers
`NULL`, not `a`. -/
theorem lookup_registered_unresolved_null :
    "a" ∈ demo_sys_unresolved.dir.getD [] ∧ demo_sys_unresolved.stat "a" = some 69 ∧
    demo_sys_unresolved.link = none ∧
    (afnetns_lookup_name demo_sys_unresolved Proc.fresh 69).1 = none ∧
    (afnetns_lookup_name demo_sys_unresolved Proc.fresh 69).1 ≠ some "a" := by
  decide

/-- C6, amended: `afnetns_lookup_name` answers `NULL` only if the self inode
is not memoised and its resolution fails; when the resolution fails on the
first lookup of a process the answer is `NULL` for every inode, that of a
registry entry included; the name of a registry entry is answered when the
resolution succeeds on that first lookup. -/
theorem lookup_null_only_unresolved (o : Sys) (i : Ino) :
    (∀ p, (afnetns_lookup_name o p i).1 = none →
      o.link = none ∧ p.self_initialized = false) ∧
    (o.link = none → (afnetns_lookup_name o Proc.fresh i).1 = none) ∧
    (∀ me pre nm post, o.link = some me → o.dir = some (pre ++ nm :: post) →
      (nm ≠ "." ∧ nm ≠ ".." ∧ o.stat nm = some i) →
      (∀ x ∈ pre, x ≠ "." → x ≠ ".." → o.stat x ≠ some i) →
      (afnetns_lookup_name o Proc.fresh i).1 =
        some (nm ++ (if i = me then ",self" else ""))) := by
  refine ⟨?_, ?_, ?_⟩
  · intro p h
    simp only [afnetns_lookup_name] at h
    have hn := lookup_cache_none o _ i h
    refine ⟨hn.2, ?_⟩
    by_cases hinit : p.initialized = true
    · simpa [hinit] using hn.1
    · simp only [hinit, if_false] at hn
      exact fill_cache_self_initialized o p hn.1
  · intro hl
    have e : afnetns_lookup_name o Proc.fresh i =
        lookup_cache o { fill_cache o Proc.fresh with initialized := true } i := by
      simp [afnetns_lookup_name, Proc.fresh]
    rw [e, fill_cache_fresh_nolink o hl, lookup_cache_eq]
    simp [Proc.fresh, get_empty, self_inode, hl]
  · intro me pre nm post hlink hdir hnm hpre
    obtain ⟨_, _, f3⟩ := get_fill_cache_fresh o me i hlink
    rw [hdir] at f3
    simp only [Option.getD_some] at f3
    rw [find_registered_first o i pre post nm hnm hpre] at f3
    have e : afnetns_lookup_name o Proc.fresh i =
        lookup_cache o { fill_cache o Proc.fresh with initialized := true } i := by
      simp [afnetns_lookup_name, Proc.fresh]
    rw [e, lookup_cache_eq]
    simp only [f3, Option.map_some']
    by_cases hme : me = i
    · subst hme
      simp
    · have : ¬ i = me := fun h => hme h.symm
      simp [hme, this]

/-! ## The handle lifecycle -/

theorem splitSlash_of_no_slash (cs : List Char) (h : '/' ∉ cs) : splitSlash cs = [cs] := by
  induction cs with
  | nil => rfl
  | cons c cs ih =>
    have hc : c ≠ '/' := fun hh => h (by simp [hh])
    have hcs : '/' ∉ cs := fun hh => h (List.mem_cons_of_mem _ hh)
    simp [splitSlash, hc, ih hcs]

theorem isComponent_iff (s : String) :
    isComponent s = true ↔ s ≠ "" ∧ s ≠ "." ∧ s ≠ ".." ∧ '/' ∉ s.toList := by
  simp [isComponent]

theorem resolve_component (s : String) (h : isComponent s = true) :
    resolve s = Target.file true s := by
  obtain ⟨h1, h2, h3, h4⟩ := (isComponent_iff s).mp h
  have ht : isTrivial s = false := by simp [isTrivial, h1, h2]
  have hs : (splitSlash s.toList).map String.mk = [s] := by
    rw [splitSlash_of_no_slash _ h4]
    rfl
  unfold resolve
  rw [hs]
  simp [List.dropWhile, ht, h3, h]

theorem resolve_inside (name c : String) (h : resolve name = Target.file true c) :
    isComponent c = true := by
  unfold resolve at h
  split at h
  · simp at h
  · split at h
    · split at h
      · simp at h
      · split at h
        · simp at h
        · split at h <;> simp at h
    · split at h
      · next hc =>
        simp only [Target.file.injEq, true_and] at h
        rw [← h]
        exact hc.2
      · simp at h

theorem mem_entries_component (K : Kernel) (x : Entry) (h : x ∈ K.entries) :
    isComponent x.name = true := by
  simp only [Kernel.entries, List.mem_filter] at h
  exact h.2

theorem mem_names_component (K : Kernel) (name : String) (h : name ∈ K.names) :
    isComponent name = true := by
  simp only [Kernel.names, List.mem_map] at h
  obtain ⟨x, hx, rfl⟩ := h
  exact mem_entries_component K x hx

theorem dir_of_mem_names (K : Kernel) (name : String) (h : name ∈ K.names) :
    ∃ raw, K.dir = some raw := by
  cases hd : K.dir with
  | none => simp [Kernel.names, Kernel.entries, hd] at h
  | some raw => exact ⟨raw, rfl⟩

theorem fits_tab (K : Kernel) (w : Bool) : Fits w (K.tab w) := by
  intro hw x hx
  subst hw
  exact mem_entries_component K x hx

theorem tab_setTab (K : Kernel) (w : Bool) (es : List Entry) (h : Fits w es) :
    (K.setTab w es).tab w = es := by
  cases w with
  | false => simp [Kernel.setTab, Kernel.tab]
  | true =>
    simp only [Kernel.setTab, Kernel.tab, if_true, Kernel.entries, Option.getD_some]
    rw [List.filter_eq_self]
    exact h rfl

theorem dir_setTab (K : Kernel) (w : Bool) (es : List Entry) (h : K.dir ≠ none) :
    (K.setTab w es).dir ≠ none := by
  cases w <;> simp [Kernel.setTab, h]

theorem cur_setTab (K : Kernel) (w : Bool) (es : List Entry) :
    (K.setTab w es).cur = K.cur := by
  cases w <;> simp [Kernel.setTab]

theorem names_setTab (K : Kernel) (w : Bool) (es : List Entry) (h : Fits w es) :
    (K.setTab w es).names = if w = true then es.map Entry.name else K.names := by
  cases w with
  | false => simp [Kernel.setTab, Kernel.names, Kernel.entries]
  | true =>
    have := tab_setTab K true es h
    simp only [Kernel.tab, if_true] at this
    simp [Kernel.names, this]

theorem setTab_setTab (K : Kernel) (w : Bool) (es es' : List Entry) :
    (K.setTab w es).setTab w es' = K.setTab w es' := by
  cases w <;> simp [Kernel.setTab]

theorem setTab_withCur (K : Kernel) (w : Bool) (es : List Entry) (n : Ino) :
    (K.withCur n).setTab w es = (K.setTab w es).withCur n := by
  cases w <;> simp [Kernel.setTab, Kernel.withCur]

theorem tab_withCur (K : Kernel) (w : Bool) (n : Ino) : (K.withCur n).tab w = K.tab w := by
  cases w <;> simp [Kernel.tab, Kernel.entries, Kernel.withCur]

theorem dir_withCur (K : Kernel) (n : Ino) : (K.withCur n).dir = K.dir := rfl

theorem cur_withCur (K : Kernel) (n : Ino) : (K.withCur n).cur = n := rfl

theorem names_withCur (K : Kernel) (n : Ino) : (K.withCur n).names = K.names := by
  simp [Kernel.names, Kernel.entries, Kernel.withCur]

theorem made_dir (K : Kernel) : K.made.dir ≠ none := by
  unfold Kernel.made
  cases h : K.dir <;> simp [h]

theorem made_tab (K : Kernel) (w : Bool) : K.made.tab w = K.tab w := by
  unfold Kernel.made
  cases h : K.dir <;> cases w <;> simp [h, Kernel.tab, Kernel.entries]

theorem made_names (K : Kernel) : K.made.names = K.names := by
  have := made_tab K true
  simp only [Kernel.tab, if_true] at this
  simp [Kernel.names, this]

theorem made_cur (K : Kernel) : K.made.cur = K.cur := by
  unfold Kernel.made
  cases h : K.dir <;> simp [h]

theorem made_of_dir (K : Kernel) (h : K.dir ≠ none) : K.made = K := by
  unfold Kernel.made
  cases hd : K.dir with
  | none => exact absurd hd h
  | some raw => rfl

theorem filter_append_new (es : List Entry) (name : String) (ino : Ino) (m : Option Ino)
    (h : name ∉ es.map Entry.name) :
    (es ++ [(⟨name, ino, m⟩ : Entry)]).filter (fun x => decide (x.name ≠ name)) = es := by
  rw [List.filter_append]
  have h1 : es.filter (fun x => decide (x.name ≠ name)) = es := by
    rw [List.filter_eq_self]
    intro x hx
    simp only [decide_eq_true_eq]
    intro hn
    exact h (List.mem_map.mpr ⟨x, hx, hn⟩)
  rw [h1]
  simp

theorem set_mnt_append_new (es : List Entry) (name : String) (ino : Ino) (m m' : Option Ino)
    (h : name ∉ es.map Entry.name) :
    set_mnt name m' (es ++ [(⟨name, ino, m⟩ : Entry)]) = es ++ [⟨name, ino, m'⟩] := by
  unfold set_mnt
  rw [List.map_append]
  have h1 : es.map (fun x => if x.name = name then { x with mnt := m' } else x) = es := by
    conv => rhs; rw [← List.map_id es]
    apply List.map_congr_left
    intro x hx
    have : x.name ≠ name := fun hn => h (List.mem_map.mpr ⟨x, hx, hn⟩)
    simp [this]
  rw [h1]
  simp

theorem no_entry_named (es : List Entry) (name : String) (h : name ∉ es.map Entry.name) :
    ∀ x ∈ es, x.name ≠ name :=
  fun x hx hn => h (List.mem_map.mpr ⟨x, hx, hn⟩)

theorem open_excl_file (e : Env) (name : String) (K : Kernel) (w : Bool) (c : String)
    (hd : K.dir ≠ none) (hr : resolve name = Target.file w c) :
    sys_open_excl e name K =
      if e.dir_w = true ∧ c ∉ (K.tab w).map Entry.name then
        (3, K.setTab w (K.tab w ++ [⟨c, e.new_ino, none⟩]))
      else (-1, K) := by
  unfold sys_open_excl
  cases h : K.dir with
  | none => exact absurd h hd
  | some raw => simp only [hr]

theorem open_excl_nofile (e : Env) (name : String) (K : Kernel)
    (hr : ∀ w c, resolve name ≠ Target.file w c) :
    sys_open_excl e name K = (-1, K) := by
  unfold sys_open_excl
  cases K.dir with
  | none => rfl
  | some raw =>
    cases h : resolve name with
    | file w c => exact absurd h (hr w c)
    | dir => rfl
    | bad => rfl

theorem mount_new (e : Env) (name : String) (S : Kernel) (w : Bool) (c : String)
    (T : List Entry) (ino : Ino) (hd : S.dir ≠ none) (hr : resolve name = Target.file w c)
    (ht : S.tab w = T ++ [⟨c, ino, none⟩]) (hc : c ∉ T.map Entry.name) :
    sys_mount e name S =
      if e.mount_ok = true then (0, S.setTab w (T ++ [⟨c, ino, some S.cur⟩]))
      else (-1, S) := by
  unfold sys_mount
  cases h : S.dir with
  | none => exact absurd h hd
  | some raw =>
    simp only [hr, ht, set_mnt_append_new T c ino none _ hc]
    simp

theorem umount2_new (e : Env) (name : String) (S : Kernel) (w : Bool) (c : String)
    (T : List Entry) (ino : Ino) (hr : resolve name = Target.file w c)
    (ht : S.tab w = T ++ [⟨c, ino, none⟩]) (hc : c ∉ T.map Entry.name) :
    sys_umount2 e name S = (-1, S) := by
  have hk := no_entry_named T c hc
  have hno : ¬ ∃ x ∈ S.tab w, x.name = c ∧ x.mnt ≠ none := by
    rintro ⟨x, hx, hn, hm⟩
    rw [ht] at hx
    simp only [List.mem_append, List.mem_singleton] at hx
    rcases hx with hx | hx
    · exact hk x hx hn
    · subst hx
      exact hm rfl
  unfold sys_umount2
  cases S.dir with
  | none => rfl
  | some raw =>
    simp only [hr]
    rw [if_neg (fun hh => hno hh.2)]

theorem unlink_new (e : Env) (name : String) (S : Kernel) (w : Bool) (c : String)
    (T : List Entry) (ino : Ino) (hd : S.dir ≠ none) (hr : resolve name = Target.file w c)
    (ht : S.tab w = T ++ [⟨c, ino, none⟩]) (hc : c ∉ T.map Entry.name) :
    sys_unlink e name S =
      if e.unlink_ok = true then (0, S.setTab w T) else (-1, S) := by
  have hx : ∃ x ∈ T ++ [(⟨c, ino, none⟩ : Entry)], x.name = c ∧ x.mnt = none :=
    ⟨⟨c, ino, none⟩, by simp, rfl, rfl⟩
  have hf := filter_append_new T c ino none hc
  unfold sys_unlink
  cases h : S.dir with
  | none => exact absurd h hd
  | some raw =>
    simp only [hr, ht, hx, and_true]
    rw [hf]

theorem delete_new (e : Env) (name : String) (rest : List String) (S : Kernel) (w : Bool)
    (c : String) (T : List Entry) (ino : Ino) (hd : S.dir ≠ none)
    (hr : resolve name = Target.file w c)
    (ht : S.tab w = T ++ [⟨c, ino, none⟩]) (hc : c ∉ T.map Entry.name) :
    afnetns_delete e (name :: rest) S =
      if e.unlink_ok = true then
        ⟨0, S.setTab w T, [Call.umount2 name (-1), Call.unlink name 0]⟩
      else
        ⟨-1, S, [Call.umount2 name (-1), Call.unlink name (-1)]⟩ := by
  simp only [afnetns_delete, umount2_new e name S w c T ino hr ht hc,
    unlink_new e name S w c T ino hd hr ht hc]
  cases e.unlink_ok <;> simp

theorem create_afnetns_dir_eq (e : Env) (K : Kernel) :
    create_afnetns_dir e K =
      if K.dir = none ∧ e.mkdir_ok = false then ⟨-1, K, [Call.mkdir (-1) false]⟩
      else ⟨0, K.made,
        [if K.dir = none then Call.mkdir 0 false else Call.mkdir (-1) true]⟩ := by
  rcases K with ⟨dir, ext, cur⟩
  cases dir with
  | none => cases hm : e.mkdir_ok <;> simp [create_afnetns_dir, sys_mkdir, hm, Kernel.made]
  | some es => simp [create_afnetns_dir, sys_mkdir, Kernel.made]

theorem fits_append_new (K : Kernel) (name : String) (w : Bool) (c : String) (ino : Ino)
    (m : Option Ino) (hr : resolve name = Target.file w c) :
    Fits w (K.tab w ++ [⟨c, ino, m⟩]) := by
  intro hw x hx
  subst hw
  rcases List.mem_append.mp hx with hx | hx
  · exact fits_tab K true rfl x hx
  · simp only [List.mem_singleton] at hx
    subst hx
    exact resolve_inside name c hr

/-- The complete behaviour of `afnetns_add` on a name leading to a file that
does not exist. -/
theorem add_file (e : Env) (name : String) (rest : List String) (K : Kernel) (w : Bool)
    (c : String) (hr : resolve name = Target.file w c)
    (habs : c ∉ (K.tab w).map Entry.name) :
    afnetns_add e (name :: rest) K =
      if K.dir = none ∧ e.mkdir_ok = false then ⟨-1, K, [Call.mkdir (-1) false]⟩
      else if e.dir_w = true then
        if e.close_ok = true then
          match e.unshare with
          | some n =>
            if e.mount_ok = true then
              ⟨0, (K.made.setTab w (K.tab w ++ [⟨c, e.new_ino, some n⟩])).withCur n,
                (create_afnetns_dir e K).tr ++
                  [Call.open_excl name 3, Call.close 0, Call.unshare 0, Call.mount name 0]⟩
            else if e.unlink_ok = true then
              ⟨-1, (K.made.setTab w (K.tab w)).withCur n,
                (create_afnetns_dir e K).tr ++
                  [Call.open_excl name 3, Call.close 0, Call.unshare 0, Call.mount name (-1),
                    Call.umount2 name (-1), Call.unlink name 0]⟩
            else
              ⟨-1, (K.made.setTab w (K.tab w ++ [⟨c, e.new_ino, none⟩])).withCur n,
                (create_afnetns_dir e K).tr ++
                  [Call.open_excl name 3, Call.close 0, Call.unshare 0, Call.mount name (-1),
                    Call.umount2 name (-1), Call.unlink name (-1)]⟩
          | none =>
            ⟨-1, K.made.setTab w (K.tab w ++ [⟨c, e.new_ino, none⟩]),
              (create_afnetns_dir e K).tr ++
                [Call.open_excl name 3, Call.close 0, Call.unshare (-1)]⟩
        else
          ⟨-1, K.made.setTab w (K.tab w ++ [⟨c, e.new_ino, none⟩]),
            (create_afnetns_dir e K).tr ++ [Call.open_excl name 3, Call.close (-1)]⟩
      else
        ⟨-1, K.made, (create_afnetns_dir e K).tr ++ [Call.open_excl name (-1)]⟩ := by
  rw [afnetns_add]
  by_cases h0 : K.dir = none ∧ e.mkdir_ok = false
  · rw [if_pos h0]
    simp [create_afnetns_dir_eq, h0]
  · rw [if_neg h0]
    have hd : create_afnetns_dir e K = ⟨0, K.made,
        [if K.dir = none then Call.mkdir 0 false else Call.mkdir (-1) true]⟩ := by
      rw [create_afnetns_dir_eq, if_neg h0]
    generalize create_afnetns_dir e K = d at hd ⊢
    subst hd
    simp only [ne_eq, not_true_eq_false, if_false]
    have habs' : c ∉ (K.made.tab w).map Entry.name := by rw [made_tab]; exact habs
    have hopen := open_excl_file e name K.made w c (made_dir K) hr
    rw [made_tab] at hopen
    rcases Bool.eq_false_or_eq_true e.dir_w with hdw | hdw
    · rw [if_pos hdw]
      rw [if_pos ⟨hdw, habs⟩] at hopen
      -- the state holding the new placeholder
      have hfit := fits_append_new K name w c e.new_ino none hr
      have hS0d : (K.made.setTab w (K.tab w ++ [⟨c, e.new_ino, none⟩])).dir ≠ none :=
        dir_setTab _ _ _ (made_dir K)
      have hS0t : (K.made.setTab w (K.tab w ++ [⟨c, e.new_ino, none⟩])).tab w =
          K.tab w ++ [⟨c, e.new_ino, none⟩] := tab_setTab _ _ _ hfit
      simp only [hopen]
      rcases Bool.eq_false_or_eq_true e.close_ok with hc | hc
      · rw [if_pos hc]
        rcases Option.eq_none_or_eq_some e.unshare with hu | ⟨n, hu⟩
        · simp [sys_close, hc, sys_unshare, hu]
        · have hS1d : ((K.made.setTab w (K.tab w ++ [⟨c, e.new_ino, none⟩])).withCur n).dir
              ≠ none := hS0d
          have hS1t : ((K.made.setTab w (K.tab w ++ [⟨c, e.new_ino, none⟩])).withCur n).tab w =
              K.tab w ++ [⟨c, e.new_ino, none⟩] := by
            rw [tab_withCur]; exact hS0t
          have hmnt := mount_new e name _ w c (K.tab w) e.new_ino hS1d hr hS1t habs
          rw [setTab_withCur, setTab_setTab, cur_withCur] at hmnt
          rcases Bool.eq_false_or_eq_true e.mount_ok with hmo | hmo
          · rw [if_pos hmo] at hmnt
            simp [sys_close, hc, sys_unshare, hu, hmnt, hmo]
          · rw [if_neg (show ¬ e.mount_ok = true by simp [hmo])] at hmnt
            have hdel := delete_new e name rest _ w c (K.tab w) e.new_ino hS1d hr hS1t habs
            rw [setTab_withCur, setTab_setTab] at hdel
            rcases Bool.eq_false_or_eq_true e.unlink_ok with hul | hul
            · rw [if_pos hul] at hdel
              simp [sys_close, hc, sys_unshare, hu, hmnt, hmo, hdel, hul]
            · rw [if_neg (show ¬ e.unlink_ok = true by simp [hul])] at hdel
              simp [sys_close, hc, sys_unshare, hu, hmnt, hmo, hdel, hul]
      · rw [if_neg (show ¬ e.close_ok = true by simp [hc])]
        simp [sys_close, hc]
    · rw [if_neg (show ¬ e.dir_w = true by simp [hdw])]
      rw [if_neg (show ¬ (e.dir_w = true ∧ c ∉ (K.tab w).map Entry.name) by simp [hdw])] at hopen
      simp only [hopen]
      simp

/-- The behaviour of `afnetns_add` when the exclusive `open` fails. -/
theorem add_open_fails (e : Env) (name : String) (rest : List String) (K : Kernel)
    (h : sys_open_excl e name K.made = (-1, K.made)) :
    afnetns_add e (name :: rest) K =
      if K.dir = none ∧ e.mkdir_ok = false then ⟨-1, K, [Call.mkdir (-1) false]⟩
      else ⟨-1, K.made, (create_afnetns_dir e K).tr ++ [Call.open_excl name (-1)]⟩ := by
  rw [afnetns_add]
  by_cases h0 : K.dir = none ∧ e.mkdir_ok = false
  · rw [if_pos h0]
    simp [create_afnetns_dir_eq, h0]
  · rw [if_neg h0]
    have hd : create_afnetns_dir e K = ⟨0, K.made,
        [if K.dir = none then Call.mkdir 0 false else Call.mkdir (-1) true]⟩ := by
      rw [create_afnetns_dir_eq, if_neg h0]
    generalize create_afnetns_dir e K = d at hd ⊢
    subst hd
    simp only [ne_eq, not_true_eq_false, if_false, h]
    simp

/-- The complete behaviour of `afnetns_add` on a name the registry holds. -/
theorem add_present (e : Env) (name : String) (rest : List String) (K : Kernel)
    (h : name ∈ K.names) :
    afnetns_add e (name :: rest) K =
      ⟨-1, K, [Call.mkdir (-1) true, Call.open_excl name (-1)]⟩ := by
  obtain ⟨raw, hraw⟩ := dir_of_mem_names K name h
  have hd : K.dir ≠ none := by simp [hraw]
  have hm : K.made = K := made_of_dir K hd
  have hr := resolve_component name (mem_names_component K name h)
  have ho : sys_open_excl e name K.made = (-1, K.made) := by
    rw [hm, open_excl_file e name K true name hd hr]
    have : name ∈ (K.tab true).map Entry.name := h
    simp [this]
  rw [add_open_fails e name rest K ho, hm, create_afnetns_dir_eq]
  simp [hraw]

theorem open_rdonly_of_find (K : Kernel) (name : String) (x : Entry)
    (h : K.find name = some x) : sys_open_rdonly name K = (3, x.mnt) := by
  unfold Kernel.find at h
  unfold sys_open_rdonly
  cases hd : K.dir with
  | none => simp [hd] at h
  | some raw =>
    simp only [hd] at h
    cases hr : resolve name with
    | file w c =>
      simp only [hr] at h
      simp only [h]
    | dir => simp [hr] at h
    | bad => simp [hr] at h

theorem find_of_open_rdonly (K : Kernel) (name : String) (r : Int) (n : Ino)
    (h : sys_open_rdonly name K = (r, some n)) :
    ∃ x, K.find name = some x ∧ x.mnt = some n := by
  unfold sys_open_rdonly at h
  cases hd : K.dir with
  | none => simp [hd] at h
  | some raw =>
    simp only [hd] at h
    cases hr : resolve name with
    | file w c =>
      simp only [hr] at h
      cases hf : (K.tab w).find? (fun x => decide (x.name = c)) with
      | none => simp [hf] at h
      | some x =>
        simp only [hf, Prod.mk.injEq] at h
        refine ⟨x, ?_, h.2⟩
        simp only [Kernel.find, hd, hr, hf]
    | dir => simp [hr] at h
    | bad => simp [hr] at h

theorem switch_success (e : Env) (name : String) (K : Kernel)
    (h : (afnetns_switch e name K).ret = 0) :
    ∃ x n, K.find name = some x ∧ x.mnt = some n ∧
      (afnetns_switch e name K).k = K.withCur n := by
  rcases ho : sys_open_rdonly name K with ⟨r, t⟩
  cases t with
  | none =>
    exfalso
    revert h
    simp only [afnetns_switch, afnetns_open, ho, sys_setns]
    split <;> simp
    intro hh
    omega
  | some n =>
    obtain ⟨x, hx, hm⟩ := find_of_open_rdonly K name r n ho
    have hr : r = 3 := by
      have := open_rdonly_of_find K name x hx
      rw [ho] at this
      exact (Prod.mk.inj this).1
    subst hr
    refine ⟨x, n, hx, hm, ?_⟩
    revert h
    cases hs : e.setns_ok <;> cases hc : e.close_ok <;>
      simp [afnetns_switch, afnetns_open, ho, sys_setns, hs, sys_close, hc]

theorem switch_mounted (e : Env) (name : String) (K : Kernel) (x : Entry) (n : Ino)
    (hx : K.find name = some x) (hm : x.mnt = some n) :
    Call.open_rdonly name 3 ∈ (afnetns_switch e name K).tr ∧
    (e.setns_ok = true → Call.setns 0 ∈ (afnetns_switch e name K).tr ∧
      (afnetns_switch e name K).k.cur = n) := by
  have ho := open_rdonly_of_find K name x hx
  rw [hm] at ho
  cases hs : e.setns_ok <;> cases hc : e.close_ok <;>
    simp [afnetns_switch, afnetns_open, ho, sys_setns, hs, sys_close, hc, Kernel.withCur]

theorem find_of_mem_names (K : Kernel) (name : String) (h : name ∈ K.names) :
    ∃ x, K.find name = some x ∧ x.name = name := by
  obtain ⟨raw, hraw⟩ := dir_of_mem_names K name h
  have hr := resolve_component name (mem_names_component K name h)
  simp only [Kernel.names, List.mem_map] at h
  obtain ⟨y, hy, hyn⟩ := h
  have hfind : K.find name = K.entries.find? (fun x => decide (x.name = name)) := by
    simp [Kernel.find, hraw, hr, Kernel.tab]
  cases hf : K.entries.find? (fun x => decide (x.name = name)) with
  | none =>
    rw [List.find?_eq_none] at hf
    exact absurd hyn (by simpa using hf y hy)
  | some x =>
    refine ⟨x, by rw [hfind, hf], ?_⟩
    simpa using List.find?_some hf

/-- C1, as stated, fails: deleting the bare placeholder `a`, the unmount
fails (nothing is mounted), the unlink succeeds, and the result is `0`. -/
theorem delete_unmounted_returns_success :
    (afnetns_delete demo_env ["a"] demo_placeholder).tr =
      [Call.umount2 "a" (-1), Call.unlink "a" 0] ∧
    (afnetns_delete demo_env ["a"] demo_placeholder).ret = 0 ∧
    ¬ ((afnetns_delete demo_env ["a"] demo_placeholder).ret ≠ 0 ↔
      ((sys_umount2 demo_env "a" demo_placeholder).1 ≠ 0 ∨
        (sys_unlink demo_env "a" (sys_umount2 demo_env "a" demo_placeholder).2).1 ≠ 0)) := by
  decide

/-- C1, amended: `afnetns_delete(name)` always makes both calls, `umount2`
and then `unlink` on the state the unmount left, and its result is the
return value of `unlink`: a failure if and only if the unlink failed,
whatever the unmount returned. -/
theorem delete_result_is_unlink (e : Env) (name : String) (rest : List String) (K : Kernel) :
    (afnetns_delete e (name :: rest) K).tr =
      [Call.umount2 name (sys_umount2 e name K).1,
        Call.unlink name (sys_unlink e name (sys_umount2 e name K).2).1] ∧
    (afnetns_delete e (name :: rest) K).ret = (sys_unlink e name (sys_umount2 e name K).2).1 ∧
    ((afnetns_delete e (name :: rest) K).ret ≠ 0 ↔
      (sys_unlink e name (sys_umount2 e name K).2).1 ≠ 0) := by
  simp [afnetns_delete]

/-- C3: when the registry already holds an entry called `name`,
`afnetns_add(name)` fails having called only `mkdir` (`EEXIST`) and the
exclusive `open`: the system state (entries, their mounts, the caller's
namespace) is unchanged, so `afnetns_switch(name)` behaves afterwards as it did
before, opening the entry and, when it carries a namespace and `setns` is
permitted, joining that namespace. -/
theorem add_existing_no_mutation (e : Env) (name : String) (rest : List String)
    (K : Kernel) (h : name ∈ K.names) :
    (afnetns_add e (name :: rest) K).ret = -1 ∧
    (afnetns_add e (name :: rest) K).k = K ∧
    (afnetns_add e (name :: rest) K).tr =
      [Call.mkdir (-1) true, Call.open_excl name (-1)] ∧
    (∀ e', afnetns_switch e' name (afnetns_add e (name :: rest) K).k =
      afnetns_switch e' name K) ∧
    (∃ x, K.find name = some x ∧ x.name = name ∧
      (afnetns_add e (name :: rest) K).k.find name = some x ∧
      ∀ e', (Call.open_rdonly name 3 ∈
          (afnetns_switch e' name (afnetns_add e (name :: rest) K).k).tr) ∧
        ∀ n, x.mnt = some n → e'.setns_ok = true →
          Call.setns 0 ∈ (afnetns_switch e' name (afnetns_add e (name :: rest) K).k).tr ∧
          (afnetns_switch e' name (afnetns_add e (name :: rest) K).k).k.cur = n) := by
  rw [add_present e name rest K h]
  refine ⟨rfl, rfl, rfl, fun _ => rfl, ?_⟩
  obtain ⟨x, hx, hxn⟩ := find_of_mem_names K name h
  refine ⟨x, hx, hxn, hx, ?_⟩
  intro e'
  cases hm : x.mnt with
  | none =>
    refine ⟨?_, fun n hn => by simp at hn⟩
    have ho := open_rdonly_of_find K name x hx
    rw [hm] at ho
    simp [afnetns_switch, afnetns_open, ho, sys_setns]
  | some n =>
    have := switch_mounted e' name K x n hx hm
    refine ⟨this.1, ?_⟩
    intro n' hn' hs
    cases hn'
    exact this.2 hs

/-- Witness for C3: adding `a` again to a registry holding the handle `a`. -/
theorem add_existing_no_mutation_witness :
    "a" ∈ demo_mounted.names ∧
    (afnetns_add demo_env ["a"] demo_mounted).ret = -1 ∧
    (afnetns_add demo_env ["a"] demo_mounted).k = demo_mounted :=
  ⟨by decide, (add_existing_no_mutation demo_env "a" [] demo_mounted (by decide)).1,
    (add_existing_no_mutation demo_env "a" [] demo_mounted (by decide)).2.1⟩

theorem count_filter_nondot (name : String) (hdot : name ≠ "." ∧ name ≠ "..")
    (l : List String) :
    (l.filter (fun n => decide ¬(n = "." ∨ n = ".."))).count name = l.count name := by
  apply List.count_filter
  simp [hdot.1, hdot.2]

theorem not_ends_self_of_short (t : String) (h : t.length < 5) :
    ¬ ∃ s : String, t = s ++ ",self" := by
  rintro ⟨s, hs⟩
  have hl : t.length = s.length + 5 := by
    rw [hs, String.length_append]
    rfl
  omega

/-- C7, as stated, fails: a process in namespace 50 looks up inode 1 (which
fills the cache and memoises 50 as the self inode), then switches to the
handle `a` of namespace 100 successfully; the lookup of its own inode 100 now
answers `a`, which does not end in `,self`. -/
theorem lookup_after_switch_stale_self :
    (afnetns_switch demo_env "a" demo_mounted).ret = 0 ∧
    (afnetns_switch demo_env "a" demo_mounted).k.cur = 100 ∧
    (afnetns_lookup_name (observe demo_env (afnetns_switch demo_env "a" demo_mounted).k)
      (afnetns_lookup_name (observe demo_env demo_mounted) Proc.fresh 1).2
      (afnetns_switch demo_env "a" demo_mounted).k.cur).1 = some "a" ∧
    ¬ ∃ s : String, "a" = s ++ ",self" :=
  ⟨by decide, by decide, by decide, not_ends_self_of_short "a" (by decide)⟩

theorem fresh_lookup_of_own_inode (o : Sys) (me : Ino) (hlink : o.link = some me) :
    ∃ s : String, (afnetns_lookup_name o Proc.fresh me).1 = some (s ++ ",self") := by
  obtain ⟨f1, f2, f3⟩ := get_fill_cache_fresh o me me hlink
  have e : afnetns_lookup_name o Proc.fresh me =
      lookup_cache o { fill_cache o Proc.fresh with initialized := true } me := by
    simp [afnetns_lookup_name, Proc.fresh]
  rw [e, lookup_cache_eq]
  cases hf : (o.dir.getD []).find? (registered o me) with
  | some nm =>
    rw [hf] at f3
    refine ⟨nm, ?_⟩
    simp [f3]
  | none =>
    rw [hf] at f3
    refine ⟨"afnet:[" ++ toString me ++ "]", ?_⟩
    simp only [Option.map_none'] at f3
    simp [f3, self_inode, f1, f2, synth]

/-- C7, amended: for a process that has not called `afnetns_lookup_name`
before (self inode not memoised, cache not filled), after
`afnetns_switch(name)` returns `0` the process belongs to the namespace of that
handle and, when the self inode resolves, `afnetns_lookup_name` of that
namespace's inode answers a string ending in `,self`. -/
theorem switch_then_first_lookup_self (e e' : Env) (name : String) (K : Kernel)
    (hsw : (afnetns_switch e name K).ret = 0) (hproc : e'.procfs = true) :
    (∃ x, K.find name = some x ∧ x.mnt = some (afnetns_switch e name K).k.cur) ∧
    ∃ s : String,
      (afnetns_lookup_name (observe e' (afnetns_switch e name K).k) Proc.fresh
        (afnetns_switch e name K).k.cur).1 = some (s ++ ",self") := by
  obtain ⟨x, n, hx, hm, hk⟩ := switch_success e name K hsw
  refine ⟨⟨x, hx, by rw [hk]; exact hm⟩, ?_⟩
  apply fresh_lookup_of_own_inode
  simp [observe, hproc]

/-- Witness for C7, amended: a process that has looked nothing up switches
to the handle `a`. -/
theorem switch_then_first_lookup_self_witness :
    (afnetns_switch demo_env "a" demo_mounted).ret = 0 ∧
    ∃ s : String,
      (afnetns_lookup_name (observe demo_env (afnetns_switch demo_env "a" demo_mounted).k)
        Proc.fresh (afnetns_switch demo_env "a" demo_mounted).k.cur).1 = some (s ++ ",self") :=
  ⟨by decide, (switch_then_first_lookup_self demo_env demo_env "a" demo_mounted (by decide)
    rfl).2⟩

/-- Witness for C6, amended: with the self inode unresolvable, the first
lookup of inode 7 answers `NULL`. -/
theorem lookup_null_only_unresolved_witness :
    demo_sys_unresolved.link = none ∧
    (afnetns_lookup_name demo_sys_unresolved Proc.fresh 7).1 = none :=
  ⟨rfl, (lookup_null_only_unresolved demo_sys_unresolved 7).2.1 rfl⟩

theorem create_tr_plain (e : Env) (K : Kernel) (name : String) (r : Int) :
    Call.open_excl name r ∉ (create_afnetns_dir e K).tr ∧
    Call.unshare r ∉ (create_afnetns_dir e K).tr ∧
    Call.mount name r ∉ (create_afnetns_dir e K).tr ∧
    Call.unlink name r ∉ (create_afnetns_dir e K).tr := by
  rw [create_afnetns_dir_eq]
  split
  · simp
  · split <;> simp

/-- When the trace of `afnetns_add` shows the exclusive `open` returning a
descriptor, the name leads to a file that did not exist. -/
theorem add_opened (e : Env) (name : String) (rest : List String) (K : Kernel)
    (hopen : Call.open_excl name 3 ∈ (afnetns_add e (name :: rest) K).tr) :
    ∃ w c, resolve name = Target.file w c ∧ c ∉ (K.tab w).map Entry.name := by
  have hfail : sys_open_excl e name K.made = (-1, K.made) → False := by
    intro hf
    rw [add_open_fails e name rest K hf] at hopen
    split at hopen
    · simp at hopen
    · simp [(create_tr_plain e K name 3).1] at hopen
  cases hr : resolve name with
  | file w c =>
    refine ⟨w, c, rfl, ?_⟩
    intro hin
    apply hfail
    rw [open_excl_file e name K.made w c (made_dir K) hr, made_tab]
    simp [hin]
  | dir =>
    exact (hfail (open_excl_nofile e name K.made (by simp [hr]))).elim
  | bad =>
    exact (hfail (open_excl_nofile e name K.made (by simp [hr]))).elim

theorem names_rolled_back (K : Kernel) (w : Bool) (n : Ino) :
    ((K.made.setTab w (K.tab w)).withCur n).names = K.names := by
  rw [names_withCur, names_setTab _ _ _ (fits_tab K w)]
  cases w with
  | true => simp [Kernel.names, Kernel.tab]
  | false => simp [made_names]

/-- C2, as stated, fails: with the mount refused and the removal of the
placeholder refused too, `afnetns_add` of the absent name `a` (directory
creation, exclusive creation and unshare succeeding) leaves the placeholder
`a` in the registry. -/
theorem add_rollback_unlink_fails :
    "a" ∉ demo_kernel.names ∧
    (create_afnetns_dir { demo_env with mount_ok := false, unlink_ok := false }
      demo_kernel).ret = 0 ∧
    (afnetns_add { demo_env with mount_ok := false, unlink_ok := false } ["a"] demo_kernel).tr =
      [Call.mkdir 0 false, Call.open_excl "a" 3, Call.close 0, Call.unshare 0,
        Call.mount "a" (-1), Call.umount2 "a" (-1), Call.unlink "a" (-1)] ∧
    "a" ∈ (afnetns_add { demo_env with mount_ok := false, unlink_ok := false } ["a"]
      demo_kernel).k.names ∧
    (afnetns_add { demo_env with mount_ok := false, unlink_ok := false } ["a"]
      demo_kernel).k.names ≠ demo_kernel.names := by
  decide

/-- C2, amended: for a name the registry does not hold, when the directory
creation, the exclusive creation and the unshare succeed and the bind mount
fails, `afnetns_add` returns the mount's `-1` after calling `umount2` and
`unlink` on the path; and when that `unlink` returned `0` the registry holds
no entry of that name afterwards: its names are those before the call. -/
theorem add_mount_failure_rolls_back (e : Env) (name : String) (rest : List String)
    (K : Kernel) (habs : name ∉ K.names)
    (hdir : (create_afnetns_dir e K).ret = 0)
    (hopen : Call.open_excl name 3 ∈ (afnetns_add e (name :: rest) K).tr)
    (hunshare : Call.unshare 0 ∈ (afnetns_add e (name :: rest) K).tr)
    (hmount : Call.mount name (-1) ∈ (afnetns_add e (name :: rest) K).tr) :
    (afnetns_add e (name :: rest) K).ret = -1 ∧
    (∃ r, (afnetns_add e (name :: rest) K).tr = (create_afnetns_dir e K).tr ++
      [Call.open_excl name 3, Call.close 0, Call.unshare 0, Call.mount name (-1),
        Call.umount2 name (-1), Call.unlink name r]) ∧
    (Call.unlink name 0 ∈ (afnetns_add e (name :: rest) K).tr →
      name ∉ (afnetns_add e (name :: rest) K).k.names ∧
      (afnetns_add e (name :: rest) K).k.names = K.names) := by
  obtain ⟨w, c, hr, hc⟩ := add_opened e name rest K hopen
  have hnm := create_tr_plain e K name
  rw [add_file e name rest K w c hr hc] at hopen hunshare hmount ⊢
  by_cases h0 : K.dir = none ∧ e.mkdir_ok = false
  · rw [create_afnetns_dir_eq, if_pos h0] at hdir
    simp at hdir
  · rw [if_neg h0] at hopen hunshare hmount ⊢
    rcases Bool.eq_false_or_eq_true e.dir_w with hdw | hdw
    · rw [if_pos hdw] at hopen hunshare hmount ⊢
      rcases Bool.eq_false_or_eq_true e.close_ok with hcl | hcl
      · rw [if_pos hcl] at hopen hunshare hmount ⊢
        rcases Option.eq_none_or_eq_some e.unshare with hu | ⟨n, hu⟩
        · rw [hu] at hunshare
          simp [(hnm 0).2.1] at hunshare
        · rw [hu] at hopen hunshare hmount ⊢
          dsimp only at hopen hunshare hmount ⊢
          rcases Bool.eq_false_or_eq_true e.mount_ok with hmo | hmo
          · rw [if_pos hmo] at hmount
            simp [(hnm (-1)).2.2.1] at hmount
          · rw [if_neg (show ¬ e.mount_ok = true by simp [hmo])]
            rcases Bool.eq_false_or_eq_true e.unlink_ok with hul | hul
            · rw [if_pos hul]
              refine ⟨rfl, ⟨0, rfl⟩, fun _ => ?_⟩
              have hn := names_rolled_back K w n
              exact ⟨by rw [hn]; exact habs, hn⟩
            · rw [if_neg (show ¬ e.unlink_ok = true by simp [hul])]
              refine ⟨rfl, ⟨-1, rfl⟩, fun hin => ?_⟩
              simp [(hnm 0).2.2.2] at hin
      · rw [if_neg (show ¬ e.close_ok = true by simp [hcl])] at hunshare
        simp [(hnm 0).2.1] at hunshare
    · rw [if_neg (show ¬ e.dir_w = true by simp [hdw])] at hopen
      simp [(hnm 3).1] at hopen

/-- Witness for C2, amended: with the mount refused, adding `a` to a system
without registry directory fails and leaves the (new) directory empty. -/
theorem add_mount_failure_rolls_back_witness :
    "a" ∉ demo_kernel.names ∧
    (afnetns_add { demo_env with mount_ok := false } ["a"] demo_kernel).ret = -1 ∧
    Call.unlink "a" 0 ∈ (afnetns_add { demo_env with mount_ok := false } ["a"] demo_kernel).tr ∧
    "a" ∉ (afnetns_add { demo_env with mount_ok := false } ["a"] demo_kernel).k.names :=
  ⟨by decide,
    (add_mount_failure_rolls_back { demo_env with mount_ok := false } "a" [] demo_kernel
      (by decide) (by decide) (by decide) (by decide) (by decide)).1,
    by decide,
    ((add_mount_failure_rolls_back { demo_env with mount_ok := false } "a" [] demo_kernel
      (by decide) (by decide) (by decide) (by decide) (by decide)).2.2 (by decide)).1⟩

theorem names_added (K : Kernel) (name : String) (ino : Ino) (m : Option Ino)
    (hcomp : isComponent name = true) :
    (K.made.setTab true (K.tab true ++ [⟨name, ino, m⟩])).names = K.names ++ [name] := by
  have hfit : Fits true (K.tab true ++ [⟨name, ino, m⟩]) :=
    fits_append_new K name true name ino m (resolve_component name hcomp)
  rw [names_setTab _ _ _ hfit]
  simp [Kernel.names, Kernel.tab]

theorem find_added (K : Kernel) (name : String) (ino : Ino) (m : Option Ino)
    (hcomp : isComponent name = true) (habs : name ∉ K.names) :
    (K.made.setTab true (K.tab true ++ [⟨name, ino, m⟩])).find name = some ⟨name, ino, m⟩ := by
  have hfit : Fits true (K.tab true ++ [⟨name, ino, m⟩]) :=
    fits_append_new K name true name ino m (resolve_component name hcomp)
  have ht := tab_setTab K.made true _ hfit
  have hd := dir_setTab K.made true (K.tab true ++ [⟨name, ino, m⟩]) (made_dir K)
  have hn : (K.tab true).find? (fun x => decide (x.name = name)) = none := by
    rw [List.find?_eq_none]
    intro x hx
    simpa using no_entry_named (K.tab true) name habs x hx
  unfold Kernel.find
  cases hdd : (K.made.setTab true (K.tab true ++ [⟨name, ino, m⟩])).dir with
  | none => exact absurd hdd hd
  | some raw =>
    simp only [resolve_component name hcomp, ht, List.find?_append, hn]
    simp

/-- C4, as stated, fails: the name `./a` is neither `.` nor `..` and the
registry holds no entry called `./a`; `afnetns_add` returns `0`, having created
the entry `a`, and the listing prints `a`: it does not contain `./a`. -/
theorem add_dot_slash_lists_other_name :
    "./a" ≠ "." ∧ "./a" ≠ ".." ∧ "./a" ∉ demo_kernel.names ∧
    (afnetns_add demo_env ["./a"] demo_kernel).ret = 0 ∧
    (afnetns_list (afnetns_add demo_env ["./a"] demo_kernel).k).2 = ["a"] ∧
    (afnetns_list (afnetns_add demo_env ["./a"] demo_kernel).k).2.count "./a" = 0 := by
  decide

/-- C4, amended: for a name that is a single path component (not empty, without
a slash, other than `.` and `..`) and that the registry does not hold, when
`afnetns_add(name)` returns `0` the lines `afnetns_list()` then prints contain
the name exactly once and neither `.` nor `..`. -/
theorem add_then_list (e : Env) (name : String) (rest : List String) (K : Kernel)
    (hcomp : isComponent name = true) (habs : name ∉ K.names)
    (hret : (afnetns_add e (name :: rest) K).ret = 0) :
    (afnetns_list (afnetns_add e (name :: rest) K).k).1 = 0 ∧
    (afnetns_list (afnetns_add e (name :: rest) K).k).2.count name = 1 ∧
    "." ∉ (afnetns_list (afnetns_add e (name :: rest) K).k).2 ∧
    ".." ∉ (afnetns_list (afnetns_add e (name :: rest) K).k).2 := by
  have hdot : name ≠ "." ∧ name ≠ ".." :=
    ⟨((isComponent_iff name).mp hcomp).2.1, ((isComponent_iff name).mp hcomp).2.2.1⟩
  have hlist : ∀ K' : Kernel, (afnetns_list K').1 = 0 ∧
      "." ∉ (afnetns_list K').2 ∧ ".." ∉ (afnetns_list K').2 := by
    intro K'
    unfold afnetns_list
    cases readdir K' with
    | none => simp
    | some names => simp [List.mem_filter]
  refine ⟨(hlist _).1, ?_, (hlist _).2.1, (hlist _).2.2⟩
  have hr := resolve_component name hcomp
  rw [add_file e name rest K true name hr habs] at hret ⊢
  by_cases h0 : K.dir = none ∧ e.mkdir_ok = false
  · rw [if_pos h0] at hret
    simp at hret
  · rw [if_neg h0] at hret ⊢
    rcases Bool.eq_false_or_eq_true e.dir_w with hdw | hdw
    · rw [if_pos hdw] at hret ⊢
      rcases Bool.eq_false_or_eq_true e.close_ok with hc | hc
      · rw [if_pos hc] at hret ⊢
        rcases Option.eq_none_or_eq_some e.unshare with hu | ⟨n, hu⟩
        · rw [hu] at hret
          simp at hret
        · rw [hu] at hret ⊢
          dsimp only at hret ⊢
          rcases Bool.eq_false_or_eq_true e.mount_ok with hmo | hmo
          · rw [if_pos hmo]
            have hcount : List.count name K.names = 0 := List.count_eq_zero.mpr habs
            have hnames := names_added K name e.new_ino (some n) hcomp
            have hdir : ((K.made.setTab true (K.tab true ++ [⟨name, e.new_ino, some n⟩])).withCur
                n).dir ≠ none := dir_setTab _ _ _ (made_dir K)
            simp only [afnetns_list, readdir]
            cases hdd : ((K.made.setTab true (K.tab true ++
                [⟨name, e.new_ino, some n⟩])).withCur n).dir with
            | none => exact absurd hdd hdir
            | some raw =>
              simp only [Option.map_some']
              rw [count_filter_nondot name hdot, names_withCur, hnames]
              have h1' : ¬ ("." = name) := fun hh => hdot.1 hh.symm
              have h2' : ¬ (".." = name) := fun hh => hdot.2 hh.symm
              simp [List.count_cons, List.count_append, hcount, h1', h2']
          · rw [if_neg (show ¬ e.mount_ok = true by simp [hmo])] at hret
            split at hret <;> simp at hret
      · rw [if_neg (show ¬ e.close_ok = true by simp [hc])] at hret
        simp at hret
    · rw [if_neg (show ¬ e.dir_w = true by simp [hdw])] at hret
      simp at hret

/-- Witness for C4, amended: adding `a` to a system without registry directory. -/
theorem add_then_list_witness :
    isComponent "a" = true ∧
    (afnetns_add demo_env ["a"] demo_kernel).ret = 0 ∧
    (afnetns_list (afnetns_add demo_env ["a"] demo_kernel).k).2.count "a" = 1 :=
  ⟨by decide, by decide, (add_then_list demo_env "a" [] demo_kernel (by decide) (by decide)
    (by decide)).2.1⟩

/-- C10, as stated, fails: with `unshare` refused, `afnetns_add` of the
absent name `./a` creates the placeholder (under the name `a`) and fails at
the unshare; the registry then holds `a`, no entry called `./a`, and the
listing does not contain `./a`. -/
theorem add_dot_slash_placeholder_other_name :
    "./a" ∉ demo_kernel.names ∧
    Call.open_excl "./a" 3 ∈
      (afnetns_add { demo_env with unshare := none } ["./a"] demo_kernel).tr ∧
    Call.unshare (-1) ∈
      (afnetns_add { demo_env with unshare := none } ["./a"] demo_kernel).tr ∧
    (afnetns_add { demo_env with unshare := none } ["./a"] demo_kernel).k.names = ["a"] ∧
    "./a" ∉ (afnetns_add { demo_env with unshare := none } ["./a"] demo_kernel).k.names ∧
    "./a" ∉ (afnetns_list
      (afnetns_add { demo_env with unshare := none } ["./a"] demo_kernel).k).2 := by
  decide

/-- C10, amended: for a name that is a single path component (not empty,
without a slash, other than `.` and `..`) and that the registry does not hold,
when the exclusive creation succeeds and the unshare then fails, `afnetns_add`
returns `-1` without calling `umount2` or `unlink`; the registry keeps the bare
placeholder, so `afnetns_list()` prints the name and a further
`afnetns_add(name)` fails at the exclusive `open`, changing nothing. -/
theorem add_unshare_failure_keeps_placeholder (e : Env) (name : String)
    (rest : List String) (K : Kernel) (hcomp : isComponent name = true)
    (habs : name ∉ K.names)
    (hopen : Call.open_excl name 3 ∈ (afnetns_add e (name :: rest) K).tr)
    (hunshare : Call.unshare (-1) ∈ (afnetns_add e (name :: rest) K).tr) :
    (afnetns_add e (name :: rest) K).ret = -1 ∧
    (afnetns_add e (name :: rest) K).tr = (create_afnetns_dir e K).tr ++
      [Call.open_excl name 3, Call.close 0, Call.unshare (-1)] ∧
    (afnetns_add e (name :: rest) K).k.find name = some ⟨name, e.new_ino, none⟩ ∧
    name ∈ (afnetns_add e (name :: rest) K).k.names ∧
    name ∈ (afnetns_list (afnetns_add e (name :: rest) K).k).2 ∧
    (∀ e' rest',
      (afnetns_add e' (name :: rest') (afnetns_add e (name :: rest) K).k).ret = -1 ∧
      (afnetns_add e' (name :: rest') (afnetns_add e (name :: rest) K).k).tr =
        [Call.mkdir (-1) true, Call.open_excl name (-1)] ∧
      (afnetns_add e' (name :: rest') (afnetns_add e (name :: rest) K).k).k =
        (afnetns_add e (name :: rest) K).k) := by
  have hdot : name ≠ "." ∧ name ≠ ".." :=
    ⟨((isComponent_iff name).mp hcomp).2.1, ((isComponent_iff name).mp hcomp).2.2.1⟩
  have hnm := create_tr_plain e K name
  have hr := resolve_component name hcomp
  rw [add_file e name rest K true name hr habs] at hopen hunshare ⊢
  by_cases h0 : K.dir = none ∧ e.mkdir_ok = false
  · rw [if_pos h0] at hopen
    simp at hopen
  · rw [if_neg h0] at hopen hunshare ⊢
    rcases Bool.eq_false_or_eq_true e.dir_w with hdw | hdw
    · rw [if_pos hdw] at hopen hunshare ⊢
      rcases Bool.eq_false_or_eq_true e.close_ok with hc | hc
      · rw [if_pos hc] at hopen hunshare ⊢
        rcases Option.eq_none_or_eq_some e.unshare with hu | ⟨n, hu⟩
        · rw [hu]
          dsimp only
          have hnames := names_added K name e.new_ino none hcomp
          have hmem : name ∈
              (K.made.setTab true (K.tab true ++ [⟨name, e.new_ino, none⟩])).names := by
            rw [hnames]
            simp
          have hdir : (K.made.setTab true (K.tab true ++ [⟨name, e.new_ino, none⟩])).dir
              ≠ none := dir_setTab _ _ _ (made_dir K)
          refine ⟨rfl, rfl, find_added K name e.new_ino none hcomp habs, hmem, ?_, ?_⟩
          · simp only [afnetns_list, readdir]
            cases hdd : (K.made.setTab true (K.tab true ++ [⟨name, e.new_ino, none⟩])).dir with
            | none => exact absurd hdd hdir
            | some raw =>
              simp only [Option.map_some', List.mem_filter]
              refine ⟨?_, by simp [hdot.1, hdot.2]⟩
              simp [hmem]
          · intro e' rest'
            rw [add_present e' name rest' _ hmem]
            exact ⟨rfl, rfl, rfl⟩
        · rw [hu] at hunshare
          dsimp only at hunshare
          split at hunshare
          · simp [(hnm (-1)).2.1] at hunshare
          · split at hunshare <;> simp [(hnm (-1)).2.1] at hunshare
      · rw [if_neg (show ¬ e.close_ok = true by simp [hc])] at hunshare
        simp [(hnm (-1)).2.1] at hunshare
    · rw [if_neg (show ¬ e.dir_w = true by simp [hdw])] at hopen
      simp [(hnm 3).1] at hopen

/-- Witness for C10, amended: with `unshare` refused, adding `a` to a system
without registry directory fails and leaves the placeholder `a` listed. -/
theorem add_unshare_failure_keeps_placeholder_witness :
    isComponent "a" = true ∧ "a" ∉ demo_kernel.names ∧
    (afnetns_add { demo_env with unshare := none } ["a"] demo_kernel).ret = -1 ∧
    "a" ∈ (afnetns_list
      (afnetns_add { demo_env with unshare := none } ["a"] demo_kernel).k).2 :=
  ⟨by decide, by decide,
    (add_unshare_failure_keeps_placeholder { demo_env with unshare := none } "a" []
      demo_kernel (by decide) (by decide) (by decide) (by decide)).1,
    (add_unshare_failure_keeps_placeholder { demo_env with unshare := none } "a" []
      demo_kernel (by decide) (by decide) (by decide) (by decide)).2.2.2.2.1⟩

end Afnetns
